import Mathlib

/-!
Verification of the TreeView node registry and query engine (src/index.js).

Strings are modelled as lists of characters (`Str`).  A JS object that the
widget treats as a tree node is modelled by `Node`: its caller fields (in
insertion order, including a possible "id" field), the system `_internalId`
property (`Option Str`, `none` when the property is absent) and the
`children` list (the code treats a missing children property and an empty
list identically in every branch it takes, so both are modelled by `[]`;
a node built without a children key serialises without it).

JS `Map`s are modelled as association lists with JS `Map` semantics
(`mapSet` overwrites in place, `mapGet` finds the unique binding,
`mapDelete` removes it); JS `Set`s as duplicate-free lists.
-/

abbrev Str := List Char

def str (s : String) : Str := s.data

def lowerStr (s : Str) : Str := s.map Char.toLower

/-- JS `String.prototype.includes`: substring containment. -/
def leadsWith : Str → Str → Bool
  | [], _ => true
  | _ :: _, [] => false
  | a :: s, b :: t => a = b && leadsWith s t

def includesSub (hay sub : Str) : Bool :=
  leadsWith sub hay ||
    match hay with
    | [] => false
    | _ :: t => includesSub t sub

/-- JS `Set.prototype.has`. -/
def setMem (s : List Str) (x : Str) : Bool := s.contains x

/-- JS `Set.prototype.add`. -/
def setAdd (s : List Str) (x : Str) : List Str := if x ∈ s then s else s ++ [x]

/-- JS `Set.prototype.delete`. -/
def setRemove (s : List Str) (x : Str) : List Str := s.filter (fun y => y ≠ x)

/-- JS `Map.prototype.get` (as an `Option`): the binding of the key
(a JS `Map` holds at most one). -/
def mapGet {α β : Type} [DecidableEq α] : List (α × β) → α → Option β
  | [], _ => none
  | p :: m, k => if p.1 = k then some p.2 else mapGet m k

/-- JS `Map.prototype.set`: overwrite the key's binding in place, else
append a new one. -/
def mapSet {α β : Type} [DecidableEq α] : List (α × β) → α → β → List (α × β)
  | [], k, v => [(k, v)]
  | p :: m, k, v => if p.1 = k then (k, v) :: m else p :: mapSet m k v

/-- JS `Map.prototype.delete`. -/
def mapDelete {α β : Type} [DecidableEq α] (m : List (α × β)) (k : α) :
    List (α × β) :=
  m.filter (fun p => p.1 ≠ k)

/-- A tree node (one JS object reachable from `this.data`). -/
structure Node where
  fields : List (Str × Str)
  internalId : Option Str
  children : List Node

instance : Inhabited Node := ⟨⟨[], none, []⟩⟩

def node_size_lt (n : Node) : sizeOf n.children < sizeOf n := by
  cases n; simp

def nodeDecEqList : (as bs : List Node) → Decidable (as = bs)
  | [], [] => isTrue rfl
  | [], _ :: _ => isFalse (fun h => List.noConfusion h)
  | _ :: _, [] => isFalse (fun h => List.noConfusion h)
  | a :: as, b :: bs =>
    if h1 : a.fields = b.fields then
      if h2 : a.internalId = b.internalId then
        match nodeDecEqList a.children b.children with
        | isTrue h3 =>
          match nodeDecEqList as bs with
          | isTrue h4 =>
            isTrue (by
              cases a; cases b
              simp only at h1 h2 h3
              rw [h1, h2, h3, h4])
          | isFalse h4 => isFalse (fun h => by cases h; exact h4 rfl)
        | isFalse h3 => isFalse (fun h => by cases h; exact h3 rfl)
      else isFalse (fun h => by cases h; exact h2 rfl)
    else isFalse (fun h => by cases h; exact h1 rfl)
termination_by as _ => sizeOf as
decreasing_by
  all_goals simp
  all_goals have := node_size_lt a
  all_goals omega

instance : DecidableEq Node := fun a b =>
  match nodeDecEqList [a] [b] with
  | isTrue h => isTrue (by simp at h; exact h)
  | isFalse h => isFalse (fun hh => h (by rw [hh]))

/-- Caller-supplied record data (the argument of `addNode` /
`updateNodeByInternalId`): an arbitrary object, so it may itself carry
`children` and `_internalId` properties (`none` = property absent). -/
structure RecordData where
  fields : List (Str × Str)
  internalId : Option Str
  children : Option (List Node)
  deriving DecidableEq

/-- Pre-order flattening of a forest (every node reachable from it). -/
def subnodesList : List Node → List Node
  | [] => []
  | n :: rest => n :: (subnodesList n.children ++ subnodesList rest)
termination_by ns => sizeOf ns
decreasing_by
  all_goals simp
  all_goals have := node_size_lt n
  all_goals omega

/-- The `_internalId` values of all nodes of a forest, in pre-order. -/
def idsL (ns : List Node) : List Str :=
  (subnodesList ns).map (fun n => n.internalId.getD [])


/-! ### Natural keys (`generateNodeId`) and serialization

`generateNodeId` derives a key from `JSON.stringify(node)`; only the
alphanumeric characters of the result survive the `replace`, so quoting
and escaping details are irrelevant and the serialization below keeps
them minimal.  `JSON.stringify` emits properties in insertion order:
caller fields first, then the children list, then `_internalId` (the
code always assigns `_internalId` last). -/

def serializeFields (fs : List (Str × Str)) : Str :=
  List.intercalate (str ",")
    (fs.map (fun p => str "\"" ++ p.1 ++ str "\":\"" ++ p.2 ++ str "\""))

def serializeList : List Node → List Str
  | [] => []
  | n :: rest =>
    (str "\x7b" ++ serializeFields n.fields ++
      (if n.children.isEmpty then []
       else str ",\"children\":[" ++ List.intercalate (str ",") (serializeList n.children) ++ str "]") ++
      (match n.internalId with
       | none => []
       | some i => str ",\"_internalId\":\"" ++ i ++ str "\"") ++
      str "\x7d") :: serializeList rest
termination_by ns => sizeOf ns
decreasing_by
  all_goals simp
  all_goals have := node_size_lt n
  all_goals omega

def serializeNode (n : Node) : Str := (serializeList [n]).headI

/-- JS property read `node[k]` on the caller fields. -/
def lookupField (k : Str) (n : Node) : Option Str := mapGet n.fields k

/-- The derived fallback key:
`'node_' + JSON.stringify(node).replace(/[^a-zA-Z0-9]/g, '').substring(0, 10)`. -/
def derivedKey (n : Node) : Str :=
  str "node_" ++ ((serializeNode n).filter Char.isAlphanum).take 10

/-- `generateNodeId` (also the `node.id || generateNodeId(node)` idiom):
a present, non-empty `id` field wins, otherwise the derived key
(JS `||` treats the empty string as falsy). -/
def getNodeKey (n : Node) : Str :=
  match lookupField (str "id") n with
  | some v => if v = [] then derivedKey n else v
  | none => derivedKey n

/-- The natural keys of all nodes of a forest, in pre-order. -/
def keysL (ns : List Node) : List Str := (subnodesList ns).map getNodeKey

/-- `node[this.displayField]` (the claims assume the field is present;
an absent field would make the JS crash on `.toLowerCase()`). -/
def displayValue (df : Str) (n : Node) : Str := (lookupField df n).getD []

/-! ### Query engine: `filterNodes` -/

/-- `node[this.displayField].toLowerCase().includes(searchTerm)`. -/
def nodeMatchCode (df term : Str) (n : Node) : Bool :=
  includesSub (lowerStr (displayValue df n)) term

def filterList (df term : Str) : List Node → List Node
  | [] => []
  | n :: rest =>
    if nodeMatchCode df term n || !(filterList df term n.children).isEmpty then
      { n with children := filterList df term n.children } :: filterList df term rest
    else filterList df term rest
termination_by ns => sizeOf ns
decreasing_by
  all_goals simp
  all_goals have := node_size_lt n
  all_goals omega

/-- `filterNodes(nodes, searchTerm)`; `if (!searchTerm) return nodes`. -/
def filterNodes (df term : Str) (ns : List Node) : List Node :=
  if term.isEmpty then ns else filterList df term ns

/-! Specification-side rendering of §4.4 of the spec: a node matches if its
display value contains the term as a case-insensitive substring; a node is
retained iff it matches or some node of its subtree matches; a retained
node keeps exactly its retained children (recursively pruned); sibling
order is preserved. -/

def nodeMatchSpec (df term : Str) (n : Node) : Bool :=
  includesSub (lowerStr (displayValue df n)) (lowerStr term)

def subtreeHasMatch (df term : Str) : List Node → Bool
  | [] => false
  | n :: rest =>
    nodeMatchSpec df term n || subtreeHasMatch df term n.children ||
      subtreeHasMatch df term rest
termination_by ns => sizeOf ns
decreasing_by
  all_goals simp
  all_goals have := node_size_lt n
  all_goals omega

def retainedSpec (df term : Str) (n : Node) : Bool :=
  nodeMatchSpec df term n || subtreeHasMatch df term n.children

def pruneList (df term : Str) : List Node → List Node
  | [] => []
  | n :: rest =>
    if retainedSpec df term n then
      { n with children := pruneList df term n.children } :: pruneList df term rest
    else pruneList df term rest
termination_by ns => sizeOf ns
decreasing_by
  all_goals simp
  all_goals have := node_size_lt n
  all_goals omega

/-! ### Widget state -/

structure TState where
  data : List Node
  displayField : Str
  searchTerm : Str
  filteredData : List Node
  paginatedData : List Node
  selectedNodes : List Str
  expandedNodes : List Str
  nodeDataMap : List (Str × Node)
  internalIdMap : List (Str × Node)
  nodeToInternalIdMap : List (Node × Str)
  usedInternalIds : List Str
  internalIdCounter : Nat
  pageSize : Nat
  currentPage : Nat
  totalPages : Nat
  showPagination : Bool
  deriving DecidableEq

instance : Inhabited TState :=
  ⟨⟨[], [], [], [], [], [], [], [], [], [], [], 0, 10, 1, 1, true⟩⟩

/-! ### Paginator

`Math.ceil(a / b)` for natural `a` and positive `b` is `(a + b - 1) / b`;
the claims about the paginator all assume `pageSize > 0`. -/

def calculatePagination (st : TState) : TState :=
  let tp := max 1 ((st.filteredData.length + st.pageSize - 1) / st.pageSize)
  let cp := if st.currentPage > tp then tp else st.currentPage
  let cp2 := if cp < 1 then 1 else cp
  { st with totalPages := tp, currentPage := cp2 }

/-- `getPaginatedData`: returns the current page (a `slice` of the
top-level filtered sequence) and updates the state. -/
def getPaginatedData (st : TState) : List Node × TState :=
  if !st.showPagination then (st.filteredData, st)
  else
    let st1 := calculatePagination st
    let startIndex := (st1.currentPage - 1) * st1.pageSize
    let page := (st1.filteredData.drop startIndex).take st1.pageSize
    (page, { st1 with paginatedData := page })

/-- `updateTreeContent` (DOM construction dropped): recomputes the page,
then `updatePaginationControls` runs `calculatePagination` once more. -/
def updateTreeContent (st : TState) : TState :=
  let st1 := (getPaginatedData st).2
  if st1.showPagination then calculatePagination st1 else st1

def goToPage (p : Nat) (st : TState) : TState :=
  if p < 1 || p > st.totalPages then st
  else updateTreeContent { st with currentPage := p }

def nextPage (st : TState) : TState :=
  if st.currentPage < st.totalPages then
    updateTreeContent { st with currentPage := st.currentPage + 1 }
  else st

def previousPage (st : TState) : TState :=
  if st.currentPage > 1 then
    updateTreeContent { st with currentPage := st.currentPage - 1 }
  else st

def firstPage (st : TState) : TState :=
  updateTreeContent { st with currentPage := 1 }

def lastPage (st : TState) : TState :=
  updateTreeContent { st with currentPage := st.totalPages }

def setPageSize (n : Nat) (st : TState) : TState :=
  if n = 0 then st
  else updateTreeContent { st with pageSize := n, currentPage := 1 }

/-! ### Selection tracker -/

/-- Shared recursion of `selectNodeAndChildren`: each child is keyed by
`child.id || this.generateNodeId(child)`. -/
def selectNodesRec : List Node → List Str → List Str
  | [], sel => sel
  | c :: rest, sel => selectNodesRec rest (selectNodesRec c.children (setAdd sel (getNodeKey c)))
termination_by ns _ => sizeOf ns
decreasing_by
  all_goals simp
  all_goals have := node_size_lt c
  all_goals omega

def selectNodeAndChildren (n : Node) (nodeId : Str) (sel : List Str) : List Str :=
  selectNodesRec n.children (setAdd sel nodeId)

def deselectNodesRec : List Node → List Str → List Str
  | [], sel => sel
  | c :: rest, sel => deselectNodesRec rest (deselectNodesRec c.children (setRemove sel (getNodeKey c)))
termination_by ns _ => sizeOf ns
decreasing_by
  all_goals simp
  all_goals have := node_size_lt c
  all_goals omega

def deselectNodeAndChildren (n : Node) (nodeId : Str) (sel : List Str) : List Str :=
  deselectNodesRec n.children (setRemove sel nodeId)

/-! ### Identity allocator

`generateInternalId` builds candidates
`` `${counter}_${Date.now()}_${random suffix}` ``; the wall clock and the
random suffix are modelled by an entropy stream `ent : Nat → Str` indexed
by the (strictly increasing) counter value.  The do/while loop retries up
to 10000 attempts, bumping the counter each attempt, and accepts the first
candidate not in `usedInternalIds`; exhaustion throws (modelled `none`). -/

def natToStr (n : Nat) : Str := (Nat.repr n).data

def genLoop (ent : Nat → Str) (used : List Str) : Nat → Nat → Option (Str × Nat)
  | counter, fuel =>
    if setMem used (natToStr (counter + 1) ++ str "_" ++ ent (counter + 1)) then
      match fuel with
      | 0 => none
      | f + 1 => genLoop ent used (counter + 1) f
    else some (natToStr (counter + 1) ++ str "_" ++ ent (counter + 1), counter + 1)

def generateInternalId (ent : Nat → Str) (st : TState) : Option (Str × TState) :=
  (genLoop ent st.usedInternalIds st.internalIdCounter 10000).map
    (fun p =>
      (p.1, { st with internalIdCounter := p.2,
                      usedInternalIds := setAdd st.usedInternalIds p.1 }))

/-! ### Node registry: `buildNodeDataMap`

The traversal state of `mapNodes`: `assigned` is the list of internal ids
given out so far in this pass — exactly the key set of the
`internalIdMap` being rebuilt, which is what
`this.internalIdMap.has(internalId)` consults (the map was cleared when
the pass started).  `mapNodes` returns the updated forest (the in-place
`node._internalId = ...` writes), the pre-order list of
(natural key, internal id, final node object) entries the pass inserts
into the three maps, and the final traversal state.  JS maps store object
references, so an entry's node is the object as it stands when the
operation completes: the final (updated) node value. -/

structure MState where
  assigned : List Str
  used : List Str
  counter : Nat
  deriving DecidableEq

def genLoopM (ent : Nat → Str) (ms : MState) : Option (Str × MState) :=
  (genLoop ent ms.used ms.counter 10000).map
    (fun p => (p.1, { ms with counter := p.2, used := setAdd ms.used p.1 }))

/-- One `mapNodes` step for the internal id:
`if (!internalId || this.internalIdMap.has(internalId))` regenerate
(the empty string is falsy), `else this.usedInternalIds.add(internalId)`. -/
def idStep (ent : Nat → Str) (n : Node) (ms : MState) : Option (Str × MState) :=
  match n.internalId with
  | some iid =>
    if iid = [] || setMem ms.assigned iid then genLoopM ent ms
    else some (iid, { ms with used := setAdd ms.used iid })
  | none => genLoopM ent ms

def mapNodes (ent : Nat → Str) :
    List Node → MState → Option (List Node × List (Str × Str × Node) × MState)
  | [], ms => some ([], [], ms)
  | n :: rest, ms =>
    match idStep ent n ms with
    | none => none
    | some (iid, ms1) =>
      match mapNodes ent n.children { ms1 with assigned := ms1.assigned ++ [iid] } with
      | none => none
      | some (cs, ces, ms2) =>
        match mapNodes ent rest ms2 with
        | none => none
        | some (rs, res, ms3) =>
          some ({ n with internalId := some iid, children := cs } :: rs,
                (getNodeKey n, iid, { n with internalId := some iid, children := cs }) :: (ces ++ res),
                ms3)
termination_by ns _ => sizeOf ns
decreasing_by
  all_goals simp
  all_goals have := node_size_lt n
  all_goals omega

def buildMap {α β : Type} [DecidableEq α] (es : List (α × β)) : List (α × β) :=
  es.foldl (fun m e => mapSet m e.1 e.2) []

def foldNodeDataMap (es : List (Str × Str × Node)) : List (Str × Node) :=
  buildMap (es.map (fun e => (e.1, e.2.2)))

def foldInternalIdMap (es : List (Str × Str × Node)) : List (Str × Node) :=
  buildMap (es.map (fun e => (e.2.1, e.2.2)))

def foldNodeToInternalIdMap (es : List (Str × Str × Node)) : List (Node × Str) :=
  buildMap (es.map (fun e => (e.2.2, e.2.1)))

/-- `buildNodeDataMap`: clears the three indexes, traverses the forest
depth-first and repopulates them. -/
def buildNodeDataMap (ent : Nat → Str) (st : TState) : Option TState :=
  (mapNodes ent st.data ⟨[], st.usedInternalIds, st.internalIdCounter⟩).map
    (fun r =>
      { st with data := r.1,
                nodeDataMap := foldNodeDataMap r.2.1,
                internalIdMap := foldInternalIdMap r.2.1,
                nodeToInternalIdMap := foldNodeToInternalIdMap r.2.1,
                usedInternalIds := r.2.2.used,
                internalIdCounter := r.2.2.counter })

/-- The map entries a rebuild produces for a forest that already carries
stable internal ids (every node keeps its id and is stored unchanged). -/
def entriesSpec : List Node → List (Str × Str × Node)
  | [] => []
  | n :: rest => (getNodeKey n, n.internalId.getD [], n) :: (entriesSpec n.children ++ entriesSpec rest)
termination_by ns => sizeOf ns
decreasing_by
  all_goals simp
  all_goals have := node_size_lt n
  all_goals omega

/-! ### Tree mutator

JS mutates node objects in place and compares them with `===`.  In this
embedding a node is its value; object identity coincides with value
equality whenever all internal ids in the tree are distinct (two distinct
objects then differ at least in their `_internalId` property), which is
the well-formedness invariant `WF` established by every rebuild.
In-place mutation of one object is rendered by replacing the first
occurrence of its value along the traversal order the code uses. -/

inductive Position
  | first
  | last
  | before
  | after
  deriving DecidableEq

/-- The `parentInternalId` argument of `addNode`: the root sentinels the
code tests for (`parentInternalId === 0 || === null || === undefined`)
or an internal id string. -/
inductive ParentRef
  | zero
  | null
  | undef
  | pid (i : Str)
  deriving DecidableEq

def isRootSentinel : ParentRef → Bool
  | .zero => true
  | .null => true
  | .undef => true
  | .pid _ => false

/-- `addToRootLevel`: `first` unshifts; `last` (the default) and the
unsupported `before`/`after` push. -/
def addToRootLevel (newNode : Node) (pos : Position) (data : List Node) : List Node :=
  match pos with
  | .first => newNode :: data
  | _ => data ++ [newNode]

/-- `addToParentNode` on one parent object (missing children list is
created, i.e. `[]`). -/
def appendChildAt (parent newNode : Node) (pos : Position) : Node :=
  { parent with children :=
      match pos with
      | .first => newNode :: parent.children
      | _ => parent.children ++ [newNode] }

/-- Replace the first occurrence of `target` (depth-first: node, then its
children, then later siblings) by `repl`. -/
def mutateFirst (target repl : Node) : List Node → Option (List Node)
  | [] => none
  | n :: rest =>
    if n = target then some (repl :: rest)
    else
      match mutateFirst target repl n.children with
      | some cs => some ({ n with children := cs } :: rest)
      | none =>
        match mutateFirst target repl rest with
        | some rest' => some (n :: rest')
        | none => none
termination_by ns => sizeOf ns
decreasing_by
  all_goals simp
  all_goals have := node_size_lt n
  all_goals omega

/-- `const newNode = { ...newNodeData }; newNode._internalId = internalId`:
the spread copies the caller fields and children, the assignment overrides
any `_internalId` the caller object carried. -/
def mkNewNode (u : RecordData) (iid : Str) : Node :=
  { fields := u.fields, internalId := some iid, children := u.children.getD [] }

/-- `refreshTree`: refilter, rebuild the registry, re-render. -/
def refreshTree (ent : Nat → Str) (st : TState) : Option TState :=
  let st1 := { st with filteredData := filterNodes st.displayField st.searchTerm st.data }
  (buildNodeDataMap ent st1).map updateTreeContent

/-- `addNode(parentInternalId, newNodeData, position)`.  The result is
`none` on allocator exhaustion; otherwise `(returned value, state)` where
the returned value is the new internal id or `null`. -/
def addNode (ent : Nat → Str) (parent : ParentRef) (u : RecordData) (pos : Position)
    (st : TState) : Option (Option Str × TState) :=
  match generateInternalId ent st with
  | none => none
  | some (iid, st1) =>
    match parent with
    | .pid p =>
      match mapGet st1.internalIdMap p with
      | none => some (none, st1)
      | some pn =>
        (refreshTree ent
            { st1 with data :=
                (mutateFirst pn (appendChildAt pn (mkNewNode u iid) pos) st1.data).getD st1.data }).map
          (fun st2 => (some iid, st2))
    | _ =>
      (refreshTree ent
          { st1 with data := addToRootLevel (mkNewNode u iid) pos st1.data }).map
        (fun st2 => (some iid, st2))

/-- `removeFromNodes`: splice out the node that is `===` the target,
searching each node, then its children, then the rest. -/
def removeFromNodes (target : Node) : List Node → Option (List Node)
  | [] => none
  | n :: rest =>
    if n = target then some rest
    else
      match removeFromNodes target n.children with
      | some cs => some ({ n with children := cs } :: rest)
      | none =>
        match removeFromNodes target rest with
        | some rest' => some (n :: rest')
        | none => none
termination_by ns => sizeOf ns
decreasing_by
  all_goals simp
  all_goals have := node_size_lt n
  all_goals omega

/-- The per-node deletions of `cleanupNodeMappings` (a node without an
`_internalId` makes `internalIdMap.delete(undefined)` a no-op). -/
def deleteEntriesFor (n : Node) (st : TState) : TState :=
  { st with nodeDataMap := mapDelete st.nodeDataMap (getNodeKey n),
            internalIdMap :=
              (match n.internalId with
               | some i => mapDelete st.internalIdMap i
               | none => st.internalIdMap),
            nodeToInternalIdMap := mapDelete st.nodeToInternalIdMap n,
            selectedNodes := setRemove st.selectedNodes (getNodeKey n),
            expandedNodes := setRemove st.expandedNodes (getNodeKey n) }

def cleanupList : List Node → TState → TState
  | [], st => st
  | n :: rest, st => cleanupList rest (cleanupList n.children (deleteEntriesFor n st))
termination_by ns _ => sizeOf ns
decreasing_by
  all_goals simp
  all_goals have := node_size_lt n
  all_goals omega

def cleanupNodeMappings (n : Node) (st : TState) : TState := cleanupList [n] st

/-- `removeNodeByInternalId`: locate, splice out, purge mappings,
refilter, rebuild, re-render.  `none` only on allocator exhaustion inside
the rebuild. -/
def removeNodeByInternalId (ent : Nat → Str) (iid : Str) (st : TState) :
    Option (Bool × TState) :=
  if iid = [] then some (false, st)
  else
    match mapGet st.internalIdMap iid with
    | none => some (false, st)
    | some target =>
      match removeFromNodes target st.data with
      | none => some (false, st)
      | some data' =>
        let st1 := cleanupNodeMappings target { st with data := data' }
        let st2 := { st1 with
          filteredData := filterNodes st1.displayField st1.searchTerm st1.data }
        (buildNodeDataMap ent st2).map (fun st3 => (true, updateTreeContent st3))

/-! ### `updateNodeByInternalId` -/

/-- `Object.assign` on the caller-field part: existing keys are
overwritten in place, new keys appended in the source object's order. -/
def assignFields (fs upd : List (Str × Str)) : List (Str × Str) :=
  upd.foldl (fun acc p => mapSet acc p.1 p.2) fs

/-- `Object.assign(node, updatedData)` (every own property of the update
object lands on the node, including `children` / `_internalId` when
present). -/
def objAssign (n : Node) (u : RecordData) : Node :=
  { fields := assignFields n.fields u.fields,
    internalId :=
      (match u.internalId with
       | some i => some i
       | none => n.internalId),
    children := u.children.getD n.children }

/-- The whole mutation of the found node:
`const children = node.children; const originalInternalId = node._internalId;
Object.assign(node, updatedData); node.children = children;
node._internalId = originalInternalId;`. -/
def applyUpdate (n : Node) (u : RecordData) : Node :=
  { objAssign n u with children := n.children, internalId := n.internalId }

/-- `updateNodeByInternalId(internalId, updatedData)` (the
`typeof updatedData !== 'object'` guard cannot fire: `RecordData` is an
object by construction).  The in-place mutation of the node object is
rendered by replacing its value in the forest and in every map entry that
references it. -/
def updateNodeByInternalId (iid : Str) (u : RecordData) (st : TState) : Bool × TState :=
  if iid = [] then (false, st)
  else
    match mapGet st.internalIdMap iid with
    | none => (false, st)
    | some node =>
      let node' := applyUpdate node u
      let st1 := { st with
        data := (mutateFirst node node' st.data).getD st.data,
        nodeDataMap :=
          st.nodeDataMap.map (fun (p : Str × Node) => if p.2 = node then (p.1, node') else p),
        internalIdMap :=
          st.internalIdMap.map (fun (p : Str × Node) => if p.2 = node then (p.1, node') else p),
        nodeToInternalIdMap :=
          st.nodeToInternalIdMap.map (fun (p : Node × Str) => if p.1 = node then (node', p.2) else p) }
      let st2 := { st1 with
        filteredData := filterNodes st1.displayField st1.searchTerm st1.data }
      (true, updateTreeContent st2)

/-! ### Well-formedness

After any successful rebuild every node reachable from `this.data`
carries a non-empty `_internalId`, these ids are pairwise distinct, and
all of them are recorded in `usedInternalIds`.  Under this invariant
value equality of nodes coincides with JS reference equality. -/

def WFdata (ns : List Node) : Prop :=
  (∀ n ∈ subnodesList ns, n.internalId.isSome ∧ n.internalId.getD [] ≠ []) ∧
    (idsL ns).Nodup

def WF (st : TState) : Prop :=
  WFdata st.data ∧ ∀ i ∈ idsL st.data, i ∈ st.usedInternalIds

instance (ns : List Node) : Decidable (WFdata ns) := by
  unfold WFdata; infer_instance

instance (st : TState) : Decidable (WF st) := by
  unfold WF; infer_instance

/-! ### Concrete example data -/

def ent0 : Nat → Str := fun _ => str "e"

def n0 : Node := { fields := [(str "name", str "x")], internalId := none, children := [] }

def st0 : TState := { (default : TState) with data := [n0] }

/-- `n0` after the first rebuild wrote the fresh internal id into it. -/
def nodeX : Node :=
  { fields := [(str "name", str "x")], internalId := some (str "1_e"), children := [] }

/-- The state after one rebuild of `st0`. -/
def s1c : TState where
  data := [nodeX]
  displayField := []
  searchTerm := []
  filteredData := []
  paginatedData := []
  selectedNodes := []
  expandedNodes := []
  nodeDataMap := [(str "node_namex", nodeX)]
  internalIdMap := [(str "1_e", nodeX)]
  nodeToInternalIdMap := [(nodeX, str "1_e")]
  usedInternalIds := [str "1_e"]
  internalIdCounter := 1
  pageSize := 10
  currentPage := 1
  totalPages := 1
  showPagination := true

/-- The state after a second rebuild: the derived natural key now also
covers the serialized `_internalId`, so the `nodeDataMap` key moved. -/
def s2c : TState := { s1c with nodeDataMap := [(str "node_namexinter", nodeX)] }

def exChild : Node :=
  { fields := [(str "id", str "b"), (str "name", str "B")], internalId := none, children := [] }

def exRoot : Node :=
  { fields := [(str "id", str "a"), (str "name", str "A")], internalId := none,
    children := [exChild] }

def forest1 : List Node := [exRoot]

def exItem (k : String) : Node :=
  { fields := [(str "id", str k)], internalId := none, children := [] }

def fiveItems : List Node :=
  [exItem "r1", exItem "r2", exItem "r3", exItem "r4", exItem "r5"]

/-- The §8 pagination example: page size 2, five root items in the
filtered forest, current page 1 (after the recompute that set
`totalPages`). -/
def s5 : TState :=
  calculatePagination
    { (default : TState) with filteredData := fiveItems, pageSize := 2, currentPage := 1 }

def stEmpty : TState := default

/-- `stEmpty` right after one id allocation. -/
def stgE : TState :=
  { (default : TState) with internalIdCounter := 1, usedInternalIds := [str "1_e"] }

def u0 : RecordData := { fields := [(str "name", str "A")], internalId := none, children := none }

def nU : Node := { fields := [(str "name", str "A")], internalId := some (str "i1"), children := [] }

def stU : TState := { (default : TState) with data := [nU], internalIdMap := [(str "i1", nU)] }

def uU : RecordData :=
  { fields := [(str "name", str "B"), (str "extra", str "z")],
    internalId := some (str "evil"), children := some [n0] }

/-- The node `addNode` inserts for `u0` under the fresh id "1_e". -/
def nW : Node :=
  { fields := [(str "name", str "A")], internalId := some (str "1_e"), children := [] }

/-- The pre-rebuild state of the `addNode` call on `stEmpty`: the fresh
id is consumed and the new node sits at the end of the root level. -/
def preW : TState where
  data := [nW]
  displayField := []
  searchTerm := []
  filteredData := []
  paginatedData := []
  selectedNodes := []
  expandedNodes := []
  nodeDataMap := []
  internalIdMap := []
  nodeToInternalIdMap := []
  usedInternalIds := [str "1_e"]
  internalIdCounter := 1
  pageSize := 10
  currentPage := 1
  totalPages := 1
  showPagination := true

/-- The state `addNode ent0 ParentRef.null u0 Position.last stEmpty`
returns alongside the fresh id "1_e". -/
def stW : TState where
  data := [nW]
  displayField := []
  searchTerm := []
  filteredData := [nW]
  paginatedData := [nW]
  selectedNodes := []
  expandedNodes := []
  nodeDataMap := [(str "node_nameAinter", nW)]
  internalIdMap := [(str "1_e", nW)]
  nodeToInternalIdMap := [(nW, str "1_e")]
  usedInternalIds := [str "1_e"]
  internalIdCounter := 1
  pageSize := 10
  currentPage := 1
  totalPages := 1
  showPagination := true

/-- Invariant threaded through a `mapNodes` pass: the ids assigned so far
are pairwise distinct and all recorded in `usedInternalIds`. -/
def MInv (ms : MState) : Prop :=
  ms.assigned.Nodup ∧ ∀ a ∈ ms.assigned, a ∈ ms.used

/-! ## Theorems -/

/-- C9: `filterNodes` with the empty search term returns the original
forest itself, unchanged — no pruning and no copying. -/
theorem c9_filter_empty_identity (df : Str) (ns : List Node) :
    filterNodes df [] ns = ns := rfl

theorem mem_setAdd (s : List Str) (x y : Str) : y ∈ setAdd s x ↔ (y ∈ s ∨ y = x) := by
  simp only [setAdd]
  split
  · rename_i h
    constructor
    · exact Or.inl
    · rintro (h1 | rfl)
      · exact h1
      · exact h
  · simp [List.mem_append]

theorem mem_setRemove (s : List Str) (x y : Str) : y ∈ setRemove s x ↔ (y ∈ s ∧ y ≠ x) := by
  simp [setRemove]

theorem keysL_cons (n : Node) (rest : List Node) :
    keysL (n :: rest) = getNodeKey n :: (keysL n.children ++ keysL rest) := by
  simp [keysL, subnodesList]

theorem mem_selectNodesRec (ns : List Node) (sel : List Str) (k : Str) :
    k ∈ selectNodesRec ns sel ↔ (k ∈ sel ∨ k ∈ keysL ns) := by
  induction ns, sel using selectNodesRec.induct with
  | case1 sel => simp [selectNodesRec, keysL, subnodesList]
  | case2 c rest sel ih1 ih2 =>
    rw [selectNodesRec, ih2, ih1, mem_setAdd, keysL_cons]
    simp only [List.mem_cons, List.mem_append]
    tauto

theorem mem_deselectNodesRec (ns : List Node) (sel : List Str) (k : Str) :
    k ∈ deselectNodesRec ns sel ↔ (k ∈ sel ∧ k ∉ keysL ns) := by
  induction ns, sel using deselectNodesRec.induct with
  | case1 sel => simp [deselectNodesRec, keysL, subnodesList]
  | case2 c rest sel ih1 ih2 =>
    rw [deselectNodesRec, ih2, ih1, mem_setRemove, keysL_cons]
    simp only [List.mem_cons, List.mem_append]
    tauto

/-- C4: cascade-selecting a node adds to the selected set exactly the
natural keys of the node and all its descendants, and cascade-deselecting
removes exactly that same set — whatever was independently selected
before. -/
theorem c4_cascade_selection (n : Node) (sel : List Str) (k : Str) :
    (k ∈ selectNodeAndChildren n (getNodeKey n) sel ↔ (k ∈ sel ∨ k ∈ keysL [n])) ∧
    (k ∈ deselectNodeAndChildren n (getNodeKey n) sel ↔ (k ∈ sel ∧ k ∉ keysL [n])) := by
  unfold selectNodeAndChildren deselectNodeAndChildren
  rw [mem_selectNodesRec, mem_deselectNodesRec, mem_setAdd, mem_setRemove, keysL_cons]
  simp only [keysL, subnodesList, List.map_nil, List.append_nil, List.mem_cons]
  tauto

/-! ### Paginator lemmas -/

theorem calculatePagination_inv (s : TState) :
    1 ≤ (calculatePagination s).currentPage ∧
      (calculatePagination s).currentPage ≤ (calculatePagination s).totalPages ∧
      1 ≤ (calculatePagination s).totalPages := by
  unfold calculatePagination
  dsimp only
  split_ifs <;> constructor <;> try constructor
  all_goals omega

theorem updateTreeContent_inv (s : TState) (hsp : s.showPagination = true) :
    1 ≤ (updateTreeContent s).currentPage ∧
      (updateTreeContent s).currentPage ≤ (updateTreeContent s).totalPages := by
  unfold updateTreeContent getPaginatedData
  simp only [hsp, Bool.not_true, Bool.false_eq_true, if_false]
  have h := calculatePagination_inv { calculatePagination s with
    paginatedData := (((calculatePagination s).filteredData.drop
      (((calculatePagination s).currentPage - 1) * (calculatePagination s).pageSize)).take
        (calculatePagination s).pageSize) }
  simp only [calculatePagination] at *
  split_ifs at * <;> simp_all <;> omega

theorem ceil_bounds (len ps : Nat) (hps : 0 < ps) :
    len ≤ (max 1 ((len + ps - 1) / ps)) * ps ∧
      (len = 0 ∨ (max 1 ((len + ps - 1) / ps) - 1) * ps < len) := by
  rcases Nat.eq_zero_or_pos len with h0 | hpos
  · subst h0; simp
  · have hq : (len + ps - 1) / ps = (len - 1) / ps + 1 := by
      have hh : len + ps - 1 = (len - 1) + ps := by omega
      rw [hh, Nat.add_div_right _ hps]
    have hmod := Nat.div_add_mod (len - 1) ps
    have hmlt : (len - 1) % ps < ps := Nat.mod_lt _ hps
    have hmax : max 1 ((len + ps - 1) / ps) = (len - 1) / ps + 1 := by
      rw [hq, Nat.max_eq_right (Nat.le_add_left 1 _)]
    rw [hmax]
    have hexp : ((len - 1) / ps + 1) * ps = ps * ((len - 1) / ps) + ps := by ring
    have hexp2 : ((len - 1) / ps + 1 - 1) * ps = ps * ((len - 1) / ps) := by
      have h3 : (len - 1) / ps + 1 - 1 = (len - 1) / ps := by omega
      rw [h3, Nat.mul_comm]
    rw [hexp, hexp2]
    generalize ps * ((len - 1) / ps) = A at hmod ⊢
    generalize (len - 1) % ps = m at hmod hmlt
    constructor
    · omega
    · right; omega

/-- C2: with a positive page size and pagination enabled, a recompute
sets `totalPages = max 1 ⌈count / pageSize⌉` (witnessed by the two
ceiling bounds), keeps `currentPage` in `[1, totalPages]`, every
navigation operation keeps `currentPage` in `[1, totalPages]`, and the
current page is exactly the `pageSize`-slice of the top-level filtered
items starting at index `(currentPage-1)·pageSize` — whole nodes, so
children of paginated nodes are not themselves paginated. -/
theorem c2_pagination (st : TState) (hps : 0 < st.pageSize) (hsp : st.showPagination = true)
    (hinv : 1 ≤ st.currentPage ∧ st.currentPage ≤ st.totalPages) :
    ((calculatePagination st).totalPages
        = max 1 ((st.filteredData.length + st.pageSize - 1) / st.pageSize)
      ∧ st.filteredData.length ≤ (calculatePagination st).totalPages * st.pageSize
      ∧ (st.filteredData.length = 0
          ∨ ((calculatePagination st).totalPages - 1) * st.pageSize < st.filteredData.length))
    ∧ (1 ≤ (calculatePagination st).currentPage
        ∧ (calculatePagination st).currentPage ≤ (calculatePagination st).totalPages)
    ∧ (∀ p, 1 ≤ (goToPage p st).currentPage
        ∧ (goToPage p st).currentPage ≤ (goToPage p st).totalPages)
    ∧ (1 ≤ (nextPage st).currentPage ∧ (nextPage st).currentPage ≤ (nextPage st).totalPages)
    ∧ (1 ≤ (previousPage st).currentPage
        ∧ (previousPage st).currentPage ≤ (previousPage st).totalPages)
    ∧ (1 ≤ (firstPage st).currentPage ∧ (firstPage st).currentPage ≤ (firstPage st).totalPages)
    ∧ (1 ≤ (lastPage st).currentPage ∧ (lastPage st).currentPage ≤ (lastPage st).totalPages)
    ∧ ((getPaginatedData st).1
        = (st.filteredData.drop (((calculatePagination st).currentPage - 1) * st.pageSize)).take
            st.pageSize)
    ∧ (∀ i, i < st.pageSize →
        ((getPaginatedData st).1)[i]?
          = st.filteredData[((calculatePagination st).currentPage - 1) * st.pageSize + i]?) := by
  have hslice : (getPaginatedData st).1
      = (st.filteredData.drop (((calculatePagination st).currentPage - 1) * st.pageSize)).take
          st.pageSize := by
    unfold getPaginatedData
    simp only [hsp, Bool.not_true, Bool.false_eq_true, if_false]
    rfl
  refine ⟨⟨rfl, ?_, ?_⟩, ⟨(calculatePagination_inv st).1, (calculatePagination_inv st).2.1⟩,
      ?_, ?_, ?_, ?_, ?_, hslice, ?_⟩
  · exact (ceil_bounds st.filteredData.length st.pageSize hps).1
  · exact (ceil_bounds st.filteredData.length st.pageSize hps).2
  · intro p
    unfold goToPage
    split_ifs with h
    · exact hinv
    · exact updateTreeContent_inv _ hsp
  · unfold nextPage
    split_ifs with h
    · exact updateTreeContent_inv _ hsp
    · exact hinv
  · unfold previousPage
    split_ifs with h
    · exact updateTreeContent_inv _ hsp
    · exact hinv
  · exact updateTreeContent_inv _ hsp
  · exact updateTreeContent_inv _ hsp
  · intro i hi
    rw [hslice, List.getElem?_take_of_lt hi, List.getElem?_drop]

/-- C2 witness at the five-item page-size-2 state: hypotheses hold and
`goToPage 10` keeps the current page in range. -/
theorem c2_pagination_witness :
    (0 < s5.pageSize ∧ s5.showPagination = true
        ∧ 1 ≤ s5.currentPage ∧ s5.currentPage ≤ s5.totalPages)
    ∧ (1 ≤ (goToPage 10 s5).currentPage
        ∧ (goToPage 10 s5).currentPage ≤ (goToPage 10 s5).totalPages) :=
  ⟨⟨by decide, by decide, by decide, by decide⟩,
    (c2_pagination s5 (by decide) (by decide) ⟨by decide, by decide⟩).2.2.1 10⟩

/-- C5 counterexample: at page size 2 with five filtered root items and
current page 1 (total pages 3), `goToPage(10)` does not clamp to page 3 —
it is rejected as out of range and the state is unchanged, so the current
page stays 1 and still holds items 1–2. -/
theorem c5_goToPage_counterexample :
    s5.pageSize = 2 ∧ s5.filteredData.length = 5 ∧ s5.currentPage = 1 ∧ s5.totalPages = 3
    ∧ goToPage 10 s5 = s5
    ∧ (goToPage 10 s5).currentPage = 1
    ∧ ¬((goToPage 10 s5).currentPage = 3)
    ∧ (getPaginatedData (goToPage 10 s5)).1 = [exItem "r1", exItem "r2"] :=
  ⟨rfl, rfl, rfl, rfl, rfl, rfl, by decide, rfl⟩

/-- C5 (amended): with page size 2 and five root items, page 1 holds
items 1–2; `goToPage(10)` is rejected as out of range and leaves the
state unchanged (no clamping); `lastPage()` reaches page 3, which holds
item 5 only. -/
theorem c5_page_example :
    (getPaginatedData s5).1 = [exItem "r1", exItem "r2"]
    ∧ goToPage 10 s5 = s5
    ∧ (lastPage s5).currentPage = 3
    ∧ (getPaginatedData (lastPage s5)).1 = [exItem "r5"] :=
  ⟨rfl, rfl, rfl, rfl⟩

/-! ### Query engine lemmas (C1) -/

theorem pruneList_eq_nil_iff (df term : Str) (ns : List Node) :
    pruneList df term ns = [] ↔ subtreeHasMatch df term ns = false := by
  induction ns using pruneList.induct df term with
  | case1 => simp [pruneList, subtreeHasMatch]
  | case2 n rest hr ih1 ih2 =>
    have hr2 := hr
    unfold retainedSpec at hr2
    rw [Bool.or_eq_true] at hr2
    rcases hr2 with h | h <;> simp [pruneList, hr, subtreeHasMatch, h]
  | case3 n rest hr ihrest =>
    have hr2 : retainedSpec df term n = false := by
      cases h : retainedSpec df term n
      · rfl
      · exact absurd h hr
    unfold retainedSpec at hr2
    rw [Bool.or_eq_false_iff] at hr2
    simp [pruneList, hr, subtreeHasMatch, hr2.1, hr2.2, ihrest]

theorem filter_cond_eq_retained (df term : Str) (hlow : lowerStr term = term) (n : Node)
    (ihc : filterList df term n.children = pruneList df term n.children) :
    (nodeMatchCode df term n || !(filterList df term n.children).isEmpty)
      = retainedSpec df term n := by
  unfold nodeMatchCode retainedSpec nodeMatchSpec
  rw [hlow, ihc]
  congr 1
  cases hsm : subtreeHasMatch df term n.children
  · rw [(pruneList_eq_nil_iff df term n.children).2 hsm]
    rfl
  · have h : pruneList df term n.children ≠ [] := by
      intro hh
      have := (pruneList_eq_nil_iff df term n.children).1 hh
      rw [this] at hsm
      exact Bool.noConfusion hsm
    cases he : (pruneList df term n.children).isEmpty
    · rfl
    · exact absurd (List.isEmpty_iff.mp he) h

theorem filterList_eq_pruneList (df term : Str) (hlow : lowerStr term = term)
    (ns : List Node) : filterList df term ns = pruneList df term ns := by
  induction ns using filterList.induct df term with
  | case1 => simp [filterList, pruneList]
  | case2 n rest hc ih1 ih2 =>
    have hb := filter_cond_eq_retained df term hlow n ih1
    have hr : retainedSpec df term n = true := hb ▸ hc
    simp only [filterList, pruneList, hc, hr, if_true]
    rw [ih1, ih2]
  | case3 n rest hc ih1 ih2 =>
    have hb := filter_cond_eq_retained df term hlow n ih1
    have hcf : (nodeMatchCode df term n || !(filterList df term n.children).isEmpty) = false := by
      cases h : (nodeMatchCode df term n || !(filterList df term n.children).isEmpty)
      · rfl
      · exact absurd h hc
    have hr : retainedSpec df term n = false := hb ▸ hcf
    simp only [filterList, pruneList, hcf, hr, Bool.false_eq_true, if_false]
    exact ih2
theorem pruneList_eq_filterMap (df term : Str) (ns : List Node) :
    pruneList df term ns
      = (ns.filter (fun n => retainedSpec df term n)).map
          (fun n => { n with children := pruneList df term n.children }) := by
  induction ns with
  | nil => simp [pruneList]
  | cons n rest ih =>
    simp only [pruneList, List.filter_cons]
    cases hr : retainedSpec df term n <;> simp [hr, ih]

/-- C1: for a non-empty (already lower-cased, as `handleSearch` passes it)
search term, `filterNodes` returns exactly the retained top-level nodes in
their original order, where a node is retained iff its display value
contains the term case-insensitively or some transitive descendant is
retained, and every retained node's children list is exactly its retained
children (recursively pruned). -/
theorem c1_filter_correct (df term : Str) (ns : List Node)
    (hne : term ≠ []) (hlow : lowerStr term = term) :
    filterNodes df term ns
      = (ns.filter (fun n => retainedSpec df term n)).map
          (fun n => { n with children := pruneList df term n.children }) := by
  have hemp : term.isEmpty = false := by
    cases term
    · exact absurd rfl hne
    · rfl
  unfold filterNodes
  rw [hemp]
  simp only [Bool.false_eq_true, if_false]
  rw [filterList_eq_pruneList df term hlow ns, pruneList_eq_filterMap]

/-- C1 witness: the §8 example forest with term "b". -/
theorem c1_filter_correct_witness :
    (str "b" ≠ [] ∧ lowerStr (str "b") = str "b")
    ∧ filterNodes (str "name") (str "b") forest1
        = (forest1.filter (fun n => retainedSpec (str "name") (str "b") n)).map
            (fun n => { n with children := pruneList (str "name") (str "b") n.children }) :=
  ⟨⟨by decide, by decide⟩,
    c1_filter_correct (str "name") (str "b") forest1 (by decide) (by decide)⟩

/-! ### Frame lemmas for re-rendering -/

theorem updateTreeContent_frame (s : TState) :
    (updateTreeContent s).data = s.data ∧ (updateTreeContent s).filteredData = s.filteredData
    ∧ (updateTreeContent s).selectedNodes = s.selectedNodes
    ∧ (updateTreeContent s).expandedNodes = s.expandedNodes
    ∧ (updateTreeContent s).nodeDataMap = s.nodeDataMap
    ∧ (updateTreeContent s).internalIdMap = s.internalIdMap
    ∧ (updateTreeContent s).nodeToInternalIdMap = s.nodeToInternalIdMap
    ∧ (updateTreeContent s).usedInternalIds = s.usedInternalIds
    ∧ (updateTreeContent s).internalIdCounter = s.internalIdCounter
    ∧ (updateTreeContent s).searchTerm = s.searchTerm
    ∧ (updateTreeContent s).displayField = s.displayField
    ∧ (updateTreeContent s).pageSize = s.pageSize
    ∧ (updateTreeContent s).showPagination = s.showPagination := by
  unfold updateTreeContent getPaginatedData calculatePagination
  cases h : s.showPagination <;> simp [h]

/-- C7: a successful update by internal id merges the supplied fields
onto the node in place (`Object.assign` semantics) while its children
list and its internal id are exactly what they were before — even when
the update object carries `children` or `_internalId` — and the call
returns success; an internal id that does not resolve returns failure
and leaves the state untouched. -/
theorem c7_update_frame (st : TState) (iid : Str) (u : RecordData) (n : Node)
    (hne : iid ≠ []) (hfind : mapGet st.internalIdMap iid = some n) :
    (∃ st', updateNodeByInternalId iid u st = (true, st')
        ∧ st'.data = (mutateFirst n (applyUpdate n u) st.data).getD st.data)
    ∧ (applyUpdate n u).children = n.children
    ∧ (applyUpdate n u).internalId = n.internalId
    ∧ (applyUpdate n u).fields = assignFields n.fields u.fields
    ∧ (∀ iid', mapGet st.internalIdMap iid' = none →
        updateNodeByInternalId iid' u st = (false, st)) := by
  refine ⟨?_, rfl, rfl, rfl, ?_⟩
  · unfold updateNodeByInternalId
    rw [if_neg hne, hfind]
    exact ⟨_, rfl, (updateTreeContent_frame _).1⟩
  · intro iid' hnone
    unfold updateNodeByInternalId
    by_cases h : iid' = []
    · rw [if_pos h]
    · rw [if_neg h, hnone]

/-- C7 witness: a concrete node updated with an object that also carries
`children` and `_internalId`. -/
theorem c7_update_frame_witness :
    (str "i1" ≠ [] ∧ mapGet stU.internalIdMap (str "i1") = some nU)
    ∧ ((∃ st', updateNodeByInternalId (str "i1") uU stU = (true, st')
          ∧ st'.data = (mutateFirst nU (applyUpdate nU uU) stU.data).getD stU.data)
        ∧ (applyUpdate nU uU).children = nU.children
        ∧ (applyUpdate nU uU).internalId = nU.internalId
        ∧ (applyUpdate nU uU).fields = assignFields nU.fields uU.fields
        ∧ (∀ iid', mapGet stU.internalIdMap iid' = none →
            updateNodeByInternalId iid' uU stU = (false, stU))) :=
  ⟨⟨by decide, rfl⟩, c7_update_frame stU (str "i1") uU nU (by decide) rfl⟩

/-! ### Natural-key derivation (C8) -/

/-- C8 counterexample: `generateNodeId` serializes the whole node, so the
derived key of a node is not a function of its caller fields alone — the
same content with an internal id present yields a different key. -/
theorem c8_key_counterexample :
    getNodeKey n0 = str "node_namex"
    ∧ getNodeKey nodeX = str "node_namexinter"
    ∧ n0.fields = nodeX.fields
    ∧ ¬(getNodeKey n0 = getNodeKey nodeX) := by
  have h1 : getNodeKey n0 = str "node_namex" := by
    simp only [getNodeKey, lookupField, mapGet, n0, derivedKey, serializeNode, serializeList,
      serializeFields, str]
    rfl
  have h2 : getNodeKey nodeX = str "node_namexinter" := by
    simp only [getNodeKey, lookupField, mapGet, nodeX, derivedKey, serializeNode, serializeList,
      serializeFields, str]
    rfl
  refine ⟨h1, h2, rfl, ?_⟩
  rw [h1, h2]
  decide

theorem filter_take_ten (fs : List (Str × Str)) (tail : Str)
    (hlen : 10 ≤ ((serializeFields fs).filter Char.isAlphanum).length) :
    ((str "\x7b" ++ serializeFields fs ++ tail).filter Char.isAlphanum).take 10
      = ((serializeFields fs).filter Char.isAlphanum).take 10 := by
  rw [List.append_assoc, List.filter_append, List.filter_append]
  have h1 : (str "\x7b").filter Char.isAlphanum = [] := rfl
  rw [h1, List.nil_append, List.take_append_of_le_length hlen]

theorem serializeNode_shape (fs : List (Str × Str)) (i : Option Str) (c : List Node) :
    serializeNode ⟨fs, i, c⟩
      = str "\x7b" ++ serializeFields fs ++
          ((if c.isEmpty then []
            else str ",\"children\":[" ++ List.intercalate (str ",") (serializeList c) ++ str "]") ++
            ((match i with
              | none => []
              | some s => str ",\"_internalId\":\"" ++ s ++ str "\"") ++
              str "\x7d")) := by
  simp only [serializeNode, serializeList, List.headI, List.append_assoc]

/-- C8 (amended): a node without a caller-supplied id gets the key
`"node_"` plus the first 10 alphanumeric characters of the serialization
of the whole node — children and internal id included, serialized after
the caller fields.  The key is therefore deterministic, and independent
of the internal id and the children whenever the caller fields alone
already contribute at least 10 alphanumeric characters — but not in
general (see the counterexample). -/
theorem c8_derived_key (fs : List (Str × Str)) (c1 c2 : List Node) (i1 i2 : Option Str)
    (hid : mapGet fs (str "id") = none)
    (hlen : 10 ≤ ((serializeFields fs).filter Char.isAlphanum).length) :
    getNodeKey ⟨fs, i1, c1⟩ = getNodeKey ⟨fs, i2, c2⟩
    ∧ getNodeKey ⟨fs, i1, c1⟩
        = str "node_" ++ ((serializeNode ⟨fs, i1, c1⟩).filter Char.isAlphanum).take 10 := by
  have hk : ∀ (i : Option Str) (c : List Node),
      getNodeKey ⟨fs, i, c⟩
        = str "node_" ++ ((serializeNode ⟨fs, i, c⟩).filter Char.isAlphanum).take 10 := by
    intro i c
    unfold getNodeKey lookupField derivedKey
    rw [show (⟨fs, i, c⟩ : Node).fields = fs from rfl, hid]
  refine ⟨?_, hk i1 c1⟩
  rw [hk i1 c1, hk i2 c2, serializeNode_shape fs i1 c1, serializeNode_shape fs i2 c2,
    filter_take_ten fs _ hlen, filter_take_ten fs _ hlen]

/-- C8 witness: caller fields with at least ten alphanumeric characters
keep the same derived key under different internal ids and children. -/
theorem c8_derived_key_witness :
    (mapGet [(str "name", str "helloworldxyz")] (str "id") = none
      ∧ 10 ≤ ((serializeFields [(str "name", str "helloworldxyz")]).filter
          Char.isAlphanum).length)
    ∧ (getNodeKey ⟨[(str "name", str "helloworldxyz")], none, []⟩
          = getNodeKey ⟨[(str "name", str "helloworldxyz")], some (str "1_e"), [n0]⟩
        ∧ getNodeKey ⟨[(str "name", str "helloworldxyz")], none, []⟩
            = str "node_" ++ ((serializeNode ⟨[(str "name", str "helloworldxyz")], none, []⟩).filter
                Char.isAlphanum).take 10) :=
  ⟨⟨rfl, by decide⟩,
    c8_derived_key [(str "name", str "helloworldxyz")] [] [n0] none (some (str "1_e"))
      rfl (by decide)⟩

/-! ### Map and traversal lemmas -/

theorem mapGet_mapSet_self {α β : Type} [DecidableEq α] (m : List (α × β)) (k : α) (v : β) :
    mapGet (mapSet m k v) k = some v := by
  induction m with
  | nil => simp [mapSet, mapGet]
  | cons p m ih =>
    by_cases h : p.1 = k
    · simp [mapSet, mapGet, h]
    · simp [mapSet, mapGet, h, ih]

theorem mapGet_mapSet_ne {α β : Type} [DecidableEq α] (m : List (α × β)) (k k' : α) (v : β)
    (h : k' ≠ k) : mapGet (mapSet m k v) k' = mapGet m k' := by
  induction m with
  | nil =>
    simp only [mapSet, mapGet]
    rw [if_neg (fun hh => h (Eq.symm hh))]
  | cons p m ih =>
    by_cases hp : p.1 = k
    · subst hp
      rw [mapSet, if_pos rfl, mapGet, mapGet,
        if_neg (fun hh => h (Eq.symm hh)), if_neg (fun hh => h (Eq.symm hh))]
    · rw [mapSet, if_neg hp, mapGet, mapGet]
      by_cases hp' : p.1 = k'
      · rw [if_pos hp', if_pos hp']
      · rw [if_neg hp', if_neg hp', ih]

theorem mapGet_mem {α β : Type} [DecidableEq α] (m : List (α × β)) (k : α) (v : β)
    (h : mapGet m k = some v) : (k, v) ∈ m := by
  induction m with
  | nil => simp [mapGet] at h
  | cons p m ih =>
    rw [mapGet] at h
    split_ifs at h with hp
    · have hv := Option.some.inj h
      subst hv
      subst hp
      exact List.mem_cons_self p m
    · exact List.mem_cons_of_mem _ (ih h)

theorem mapGet_eq_none {α β : Type} [DecidableEq α] (m : List (α × β)) (k : α)
    (h : ∀ p ∈ m, p.1 ≠ k) : mapGet m k = none := by
  induction m with
  | nil => rfl
  | cons p m ih =>
    rw [mapGet, if_neg (h p (List.mem_cons_self p m))]
    exact ih (fun q hq => h q (List.mem_cons_of_mem _ hq))

theorem mapSet_subset {α β : Type} [DecidableEq α] (m : List (α × β)) (k : α) (v : β)
    (p : α × β) (h : p ∈ mapSet m k v) : p ∈ m ∨ p = (k, v) := by
  induction m with
  | nil =>
    simp only [mapSet, List.mem_singleton] at h
    exact Or.inr h
  | cons q m ih =>
    simp only [mapSet] at h
    split_ifs at h with hq
    · rw [List.mem_cons] at h
      rcases h with h | h
      · exact Or.inr h
      · exact Or.inl (List.mem_cons_of_mem _ h)
    · rw [List.mem_cons] at h
      rcases h with h | h
      · exact Or.inl (h ▸ List.mem_cons_self q m)
      · rcases ih h with h' | h'
        · exact Or.inl (List.mem_cons_of_mem _ h')
        · exact Or.inr h'

theorem foldl_mapSet_subset {α β : Type} [DecidableEq α] (es : List (α × β)) :
    ∀ (acc : List (α × β)) (p : α × β),
      p ∈ es.foldl (fun m e => mapSet m e.1 e.2) acc → p ∈ acc ∨ p ∈ es := by
  induction es with
  | nil => intro acc p hh; exact Or.inl hh
  | cons e es ih =>
    intro acc p hh
    rcases ih (mapSet acc e.1 e.2) p hh with h' | h'
    · rcases mapSet_subset acc e.1 e.2 p h' with h'' | h''
      · exact Or.inl h''
      · right
        rw [h'']
        exact List.mem_cons_self e es
    · exact Or.inr (List.mem_cons_of_mem _ h')

theorem buildMap_subset {α β : Type} [DecidableEq α] (es : List (α × β)) (p : α × β)
    (h : p ∈ buildMap es) : p ∈ es := by
  rcases foldl_mapSet_subset es [] p h with h' | h'
  · exact absurd h' (List.not_mem_nil p)
  · exact h'

theorem mapGet_buildMap_mem {α β : Type} [DecidableEq α] (es : List (α × β)) (k : α) (v : β)
    (h : mapGet (buildMap es) k = some v) : (k, v) ∈ es :=
  buildMap_subset es (k, v) (mapGet_mem _ _ _ h)

theorem mapGet_buildMap_eq_none {α β : Type} [DecidableEq α] (es : List (α × β)) (k : α)
    (h : ∀ e ∈ es, e.1 ≠ k) : mapGet (buildMap es) k = none :=
  mapGet_eq_none _ _ (fun p hp => h p (buildMap_subset es p hp))

theorem foldl_mapSet_get_notin {α β : Type} [DecidableEq α] (es : List (α × β)) :
    ∀ (acc : List (α × β)) (k : α), (∀ e ∈ es, e.1 ≠ k) →
      mapGet (es.foldl (fun m e => mapSet m e.1 e.2) acc) k = mapGet acc k := by
  induction es with
  | nil => intro acc k _; rfl
  | cons e es ih =>
    intro acc k h
    rw [List.foldl_cons, ih (mapSet acc e.1 e.2) k
        (fun e' he' => h e' (List.mem_cons_of_mem _ he')),
      mapGet_mapSet_ne acc e.1 k e.2 (fun hh => h e (List.mem_cons_self e es) (Eq.symm hh))]

theorem foldl_mapSet_get_mem {α β : Type} [DecidableEq α] (es : List (α × β)) :
    ∀ (acc : List (α × β)) (k : α) (v : β), (k, v) ∈ es → (es.map Prod.fst).Nodup →
      mapGet (es.foldl (fun m e => mapSet m e.1 e.2) acc) k = some v := by
  induction es with
  | nil => intro acc k v h _; exact absurd h (List.not_mem_nil _)
  | cons e es ih =>
    intro acc k v h hnd
    rw [List.map_cons, List.nodup_cons] at hnd
    rw [List.mem_cons] at h
    rcases h with h | h
    · have hk : e.1 = k := by rw [← h]
      have hv : e.2 = v := by rw [← h]
      rw [List.foldl_cons,
        foldl_mapSet_get_notin es (mapSet acc e.1 e.2) k
          (fun e' he' hh => hnd.1 (by rw [hk, ← hh]; exact List.mem_map_of_mem Prod.fst he')),
        hk, hv]
      exact mapGet_mapSet_self acc k v
    · rw [List.foldl_cons]
      exact ih (mapSet acc e.1 e.2) k v h hnd.2

theorem mapGet_buildMap_of_nodup {α β : Type} [DecidableEq α] (es : List (α × β))
    (hnd : (es.map Prod.fst).Nodup) (k : α) (v : β) (hmem : (k, v) ∈ es) :
    mapGet (buildMap es) k = some v :=
  foldl_mapSet_get_mem es [] k v hmem hnd

/-! ### Forest traversal lemmas -/

theorem subnodesList_append (l1 l2 : List Node) :
    subnodesList (l1 ++ l2) = subnodesList l1 ++ subnodesList l2 := by
  induction l1 with
  | nil => simp [subnodesList]
  | cons n l1 ih =>
    rw [List.cons_append, subnodesList, subnodesList, ih, List.cons_append, List.append_assoc]

theorem idsL_cons (n : Node) (rest : List Node) :
    idsL (n :: rest) = n.internalId.getD [] :: (idsL n.children ++ idsL rest) := by
  simp [idsL, subnodesList]

theorem idsL_append (l1 l2 : List Node) : idsL (l1 ++ l2) = idsL l1 ++ idsL l2 := by
  simp [idsL, subnodesList_append]

theorem entriesSpec_pairs (d : List Node) :
    (entriesSpec d).map (fun e => (e.2.1, e.2.2))
      = (subnodesList d).map (fun n => (n.internalId.getD [], n)) := by
  induction d using entriesSpec.induct with
  | case1 => simp [entriesSpec, subnodesList]
  | case2 n rest ih1 ih2 =>
    rw [entriesSpec, subnodesList, List.map_cons, List.map_cons, List.map_append,
      List.map_append, ih1, ih2]

theorem entriesSpec_pairs_swap (d : List Node) :
    (entriesSpec d).map (fun e => (e.2.2, e.2.1))
      = (subnodesList d).map (fun n => (n, n.internalId.getD [])) := by
  induction d using entriesSpec.induct with
  | case1 => simp [entriesSpec, subnodesList]
  | case2 n rest ih1 ih2 =>
    rw [entriesSpec, subnodesList, List.map_cons, List.map_cons, List.map_append,
      List.map_append, ih1, ih2]

/-! ### Allocator lemmas -/

theorem setMem_false {s : List Str} {x : Str} (h : setMem s x = false) : x ∉ s := by
  intro hx
  have h2 : setMem s x = true := by
    rw [setMem]
    exact List.elem_eq_true_of_mem hx
  rw [h2] at h
  exact Bool.noConfusion h

theorem setAdd_of_mem {s : List Str} {x : Str} (h : x ∈ s) : setAdd s x = s := by
  rw [setAdd, if_pos h]

theorem mem_setAdd_self (s : List Str) (x : Str) : x ∈ setAdd s x := by
  rw [setAdd]
  split_ifs with h
  · exact h
  · simp

theorem setAdd_sub (s : List Str) (x : Str) : ∀ y ∈ s, y ∈ setAdd s x := by
  intro y hy
  rw [setAdd]
  split_ifs with h
  · exact hy
  · simp [hy]

theorem genLoop_spec (ent : Nat → Str) (used : List Str) :
    ∀ (fuel counter : Nat) (i : Str) (c' : Nat),
      genLoop ent used counter fuel = some (i, c') → i ∉ used ∧ i ≠ [] := by
  intro fuel
  induction fuel with
  | zero =>
    intro counter i c' h
    rw [genLoop] at h
    by_cases hm : setMem used (natToStr (counter + 1) ++ str "_" ++ ent (counter + 1)) = true
    · rw [if_pos hm] at h
      exact Option.noConfusion h
    · rw [if_neg hm] at h
      injection Option.some.inj h with h1 h2
      subst h1
      exact ⟨setMem_false (Bool.eq_false_iff.mpr hm), by simp [str]⟩
  | succ f ih =>
    intro counter i c' h
    rw [genLoop] at h
    by_cases hm : setMem used (natToStr (counter + 1) ++ str "_" ++ ent (counter + 1)) = true
    · rw [if_pos hm] at h
      exact ih (counter + 1) i c' h
    · rw [if_neg hm] at h
      injection Option.some.inj h with h1 h2
      subst h1
      exact ⟨setMem_false (Bool.eq_false_iff.mpr hm), by simp [str]⟩

theorem genLoopM_spec (ent : Nat → Str) (ms : MState) (i : Str) (ms1 : MState)
    (h : genLoopM ent ms = some (i, ms1)) :
    i ∉ ms.used ∧ i ≠ [] ∧ ms1.assigned = ms.assigned ∧ ms1.used = setAdd ms.used i := by
  unfold genLoopM at h
  cases hg : genLoop ent ms.used ms.counter 10000 with
  | none => rw [hg] at h; exact Option.noConfusion h
  | some p =>
    rw [hg] at h
    simp only [Option.map] at h
    injection h with h1
    injection h1 with h1 h2
    subst h1
    subst h2
    have hs := genLoop_spec ent ms.used 10000 ms.counter p.1 p.2 hg
    exact ⟨hs.1, hs.2, rfl, rfl⟩

theorem generateInternalId_spec (ent : Nat → Str) (st : TState) (i : Str) (st' : TState)
    (h : generateInternalId ent st = some (i, st')) :
    i ∉ st.usedInternalIds ∧ i ≠ []
    ∧ st' = { st with internalIdCounter := st'.internalIdCounter,
                      usedInternalIds := setAdd st.usedInternalIds i } := by
  unfold generateInternalId at h
  cases hg : genLoop ent st.usedInternalIds st.internalIdCounter 10000 with
  | none => rw [hg] at h; exact Option.noConfusion h
  | some p =>
    rw [hg] at h
    simp only [Option.map] at h
    injection h with h1
    injection h1 with h1 h2
    subst h1
    subst h2
    have hs := genLoop_spec ent st.usedInternalIds 10000 st.internalIdCounter p.1 p.2 hg
    exact ⟨hs.1, hs.2, rfl⟩

theorem idStep_spec (ent : Nat → Str) (n : Node) (ms : MState) (iid : Str) (ms1 : MState)
    (h : idStep ent n ms = some (iid, ms1)) (hsub : ∀ a ∈ ms.assigned, a ∈ ms.used) :
    iid ∉ ms.assigned ∧ iid ≠ [] ∧ ms1.assigned = ms.assigned
    ∧ (∀ x ∈ ms.used, x ∈ ms1.used) ∧ iid ∈ ms1.used
    ∧ (iid = n.internalId.getD [] ∨ iid ∉ ms.used) := by
  unfold idStep at h
  cases hn : n.internalId with
  | none =>
    rw [hn] at h
    have hs := genLoopM_spec ent ms iid ms1 h
    exact ⟨fun ha => hs.1 (hsub iid ha), hs.2.1, hs.2.2.1,
      fun x hx => hs.2.2.2 ▸ setAdd_sub ms.used iid x hx,
      hs.2.2.2 ▸ mem_setAdd_self ms.used iid, Or.inr hs.1⟩
  | some j =>
    rw [hn] at h
    replace h : (if (decide (j = []) || setMem ms.assigned j) = true then genLoopM ent ms
        else some (j, { ms with used := setAdd ms.used j })) = some (iid, ms1) := h
    by_cases hc : (decide (j = []) || setMem ms.assigned j) = true
    · rw [if_pos hc] at h
      have hs := genLoopM_spec ent ms iid ms1 h
      exact ⟨fun ha => hs.1 (hsub iid ha), hs.2.1, hs.2.2.1,
        fun x hx => hs.2.2.2 ▸ setAdd_sub ms.used iid x hx,
        hs.2.2.2 ▸ mem_setAdd_self ms.used iid, Or.inr hs.1⟩
    · rw [if_neg hc] at h
      rw [Bool.or_eq_true] at hc
      push_neg at hc
      injection h with h1
      injection h1 with h1 h2'
      subst h1
      subst h2'
      refine ⟨setMem_false (Bool.eq_false_iff.mpr hc.2), fun he => hc.1 (decide_eq_true he),
        rfl, fun x hx => setAdd_sub ms.used j x hx, mem_setAdd_self ms.used j,
        Or.inl rfl⟩

/-- What one successful `mapNodes` pass guarantees, whatever the input
forest: the pass appends exactly the (pairwise distinct, non-empty,
used-recorded) ids of the updated forest to `assigned`, only grows
`usedInternalIds`, gives every reachable node a non-empty id, and emits
one map entry per reachable node carrying that node and its id. -/
theorem mapNodes_spec (ent : Nat → Str) (ns : List Node) (ms : MState) :
    ∀ (ns' : List Node) (es : List (Str × Str × Node)) (ms' : MState),
      mapNodes ent ns ms = some (ns', es, ms') → MInv ms →
      ms'.assigned = ms.assigned ++ idsL ns'
      ∧ MInv ms'
      ∧ (∀ x ∈ ms.used, x ∈ ms'.used)
      ∧ (∀ n ∈ subnodesList ns', n.internalId.isSome ∧ n.internalId.getD [] ≠ [])
      ∧ es.map (fun e => (e.2.1, e.2.2))
          = (subnodesList ns').map (fun n => (n.internalId.getD [], n))
      ∧ (∀ i ∈ idsL ns', i ∈ idsL ns ∨ i ∉ ms.used) := by
  induction ns, ms using mapNodes.induct ent with
  | case1 ms =>
    intro ns' es ms' h hinv
    rw [mapNodes] at h
    injection h with h1
    injection h1 with h1 h2
    injection h2 with h2 h3
    subst h1; subst h2; subst h3
    exact ⟨by simp [idsL, subnodesList], hinv, fun x hx => hx,
      by simp [subnodesList], by simp [subnodesList, idsL], by simp [idsL, subnodesList]⟩
  | case2 n rest ms hid =>
    intro ns' es ms' h hinv
    simp only [mapNodes, hid] at h
    exact Option.noConfusion h
  | case3 n rest ms iid ms1 hid hch ihc =>
    intro ns' es ms' h hinv
    simp only [mapNodes, hid, hch] at h
    exact Option.noConfusion h
  | case4 n rest ms iid ms1 hid cs ces ms2 hch hrest ihc ihr =>
    intro ns' es ms' h hinv
    simp only [mapNodes, hid, hch, hrest] at h
    exact Option.noConfusion h
  | case5 n rest ms iid ms1 hid cs ces ms2 hch rs res ms3 hrest ihc ihr =>
    intro ns' es ms' h hinv
    simp only [mapNodes, hid, hch, hrest] at h
    injection h with h1
    injection h1 with h1 h2
    injection h2 with h2 h3
    subst h1; subst h2; subst h3
    have hstep := idStep_spec ent n ms iid ms1 hid hinv.2
    have hinv1 : MInv { ms1 with assigned := ms1.assigned ++ [iid] } := by
      constructor
      · rw [hstep.2.2.1]
        refine List.Nodup.append hinv.1 (List.nodup_singleton iid) ?_
        intro a ha hb
        rw [List.mem_singleton] at hb
        subst hb
        exact hstep.1 ha
      · intro a ha
        rw [hstep.2.2.1] at ha
        rcases List.mem_append.mp ha with ha | ha
        · exact hstep.2.2.2.1 a (hinv.2 a ha)
        · rw [List.mem_singleton] at ha
          subst ha
          exact hstep.2.2.2.2.1
    have hc := ihc cs ces ms2 hch hinv1
    have hr := ihr rs res ms3 hrest hc.2.1
    have hids : idsL ({ n with internalId := some iid, children := cs } :: rs)
        = iid :: (idsL cs ++ idsL rs) := by
      rw [idsL_cons]
      rfl
    refine ⟨?_, hr.2.1, ?_, ?_, ?_, ?_⟩
    · rw [hr.1, hc.1]
      show (ms1.assigned ++ [iid]) ++ idsL cs ++ idsL rs
        = ms.assigned ++ idsL ({ n with internalId := some iid, children := cs } :: rs)
      rw [hstep.2.2.1, idsL_cons]
      show ms.assigned ++ [iid] ++ idsL cs ++ idsL rs
        = ms.assigned ++ iid :: (idsL cs ++ idsL rs)
      simp [List.append_assoc]
    · intro x hx
      exact hr.2.2.1 x (hc.2.2.1 x (hstep.2.2.2.1 x hx))
    · intro m hm
      rw [subnodesList] at hm
      rcases List.mem_cons.mp hm with hm | hm
      · subst hm
        exact ⟨rfl, hstep.2.1⟩
      · rcases List.mem_append.mp hm with hm | hm
        · exact hc.2.2.2.1 m hm
        · exact hr.2.2.2.1 m hm
    · rw [subnodesList]
      show ((getNodeKey n, iid, { n with internalId := some iid, children := cs }) :: (ces ++ res)).map
          (fun e => (e.2.1, e.2.2))
        = _
      rw [List.map_cons, List.map_append, List.map_cons, List.map_append, hc.2.2.2.2.1,
        hr.2.2.2.2.1]
      rfl
    · intro i hi
      rw [hids] at hi
      rcases List.mem_cons.mp hi with hi | hi
      · subst hi
        rcases hstep.2.2.2.2.2 with hk | hk
        · left
          rw [idsL_cons, hk]
          exact List.mem_cons_self _ _
        · exact Or.inr hk
      · rcases List.mem_append.mp hi with hi | hi
        · rcases hc.2.2.2.2.2 i hi with hk | hk
          · left
            rw [idsL_cons]
            exact List.mem_cons_of_mem _ (List.mem_append_left _ hk)
          · right
            intro hu
            exact hk (hstep.2.2.2.1 i hu)
        · rcases hr.2.2.2.2.2 i hi with hk | hk
          · left
            rw [idsL_cons]
            exact List.mem_cons_of_mem _ (List.mem_append_right _ hk)
          · right
            intro hu
            exact hk (hc.2.2.1 i (hstep.2.2.2.1 i hu))

theorem setMem_false_of_not_mem {s : List Str} {x : Str} (h : x ∉ s) : setMem s x = false := by
  cases hb : setMem s x
  · rfl
  · rw [setMem] at hb
    exact absurd (List.mem_of_elem_eq_true hb) h

/-- Stability of one `mapNodes` pass: on a forest whose nodes already
carry non-empty, pairwise-distinct internal ids all recorded in
`usedInternalIds`, the pass keeps every node exactly as it is and emits
the canonical entries. -/
theorem mapNodes_stable (ent : Nat → Str) :
    ∀ (k : Nat) (ns : List Node) (ms : MState), sizeOf ns ≤ k →
      (∀ n ∈ subnodesList ns, n.internalId.isSome ∧ n.internalId.getD [] ≠ []) →
      (ms.assigned ++ idsL ns).Nodup →
      (∀ i ∈ idsL ns, i ∈ ms.used) →
      mapNodes ent ns ms
        = some (ns, entriesSpec ns, ⟨ms.assigned ++ idsL ns, ms.used, ms.counter⟩) := by
  intro k
  induction k using Nat.strong_induction_on with
  | _ k ih =>
    intro ns ms hk hsome hnd hused
    cases ns with
    | nil =>
      rw [mapNodes]
      simp only [idsL, subnodesList, entriesSpec, List.map_nil, List.append_nil]
    | cons n rest =>
      have hmem : n ∈ subnodesList (n :: rest) := by
        rw [subnodesList]
        exact List.mem_cons_self _ _
      obtain ⟨hso, hne⟩ := hsome n hmem
      cases hn : n.internalId with
      | none => rw [hn] at hso; exact Bool.noConfusion hso
      | some j =>
      have hjne : j ≠ [] := by
        rw [hn] at hne
        exact hne
      have hids : idsL (n :: rest) = j :: (idsL n.children ++ idsL rest) := by
        rw [idsL_cons, hn]
        rfl
      rw [hids] at hnd hused
      have hnd2 : ((ms.assigned ++ [j]) ++ (idsL n.children ++ idsL rest)).Nodup := by
        rw [← List.append_cons]
        exact hnd
      have hjnotass : j ∉ ms.assigned := by
        intro hj
        have hdisj := (List.nodup_append.mp hnd).2.2
        exact hdisj hj (List.mem_cons_self _ _)
      have hjused : j ∈ ms.used := hused j (List.mem_cons_self _ _)
      have hidstep : idStep ent n ms = some (j, ms) := by
        simp only [idStep, hn]
        rw [decide_eq_false hjne, setMem_false_of_not_mem hjnotass]
        simp only [Bool.or_false, Bool.false_eq_true, if_false]
        rw [setAdd_of_mem hjused]
      have hsz : sizeOf (n :: rest) = 1 + sizeOf n + sizeOf rest := by simp
      have hch : mapNodes ent n.children ⟨ms.assigned ++ [j], ms.used, ms.counter⟩
          = some (n.children, entriesSpec n.children,
              ⟨(ms.assigned ++ [j]) ++ idsL n.children, ms.used, ms.counter⟩) := by
        refine ih (sizeOf n.children) ?_ n.children _ le_rfl ?_ ?_ ?_
        · have := node_size_lt n
          omega
        · intro m hm
          refine hsome m ?_
          rw [subnodesList]
          exact List.mem_cons_of_mem _ (List.mem_append_left _ hm)
        · refine List.Nodup.sublist ?_ hnd2
          exact List.Sublist.append_left (List.sublist_append_left _ _) _
        · intro i hi
          exact hused i (List.mem_cons_of_mem _ (List.mem_append_left _ hi))
      have hrest : mapNodes ent rest ⟨(ms.assigned ++ [j]) ++ idsL n.children, ms.used, ms.counter⟩
          = some (rest, entriesSpec rest,
              ⟨((ms.assigned ++ [j]) ++ idsL n.children) ++ idsL rest, ms.used, ms.counter⟩) := by
        refine ih (sizeOf rest) ?_ rest _ le_rfl ?_ ?_ ?_
        · omega
        · intro m hm
          refine hsome m ?_
          rw [subnodesList]
          exact List.mem_cons_of_mem _ (List.mem_append_right _ hm)
        · rw [List.append_assoc]
          exact hnd2
        · intro i hi
          exact hused i (List.mem_cons_of_mem _ (List.mem_append_right _ hi))
      have hfn : { n with internalId := some j, children := n.children } = n := by
        cases n with
        | mk f i c =>
          replace hn : i = some j := hn
          rw [hn]
      simp only [mapNodes, hidstep, hch, hrest]
      rw [hfn]
      rw [entriesSpec]
      show some (n :: rest, _ :: (entriesSpec n.children ++ entriesSpec rest), _)
        = some (n :: rest, _ :: (entriesSpec n.children ++ entriesSpec rest), _)
      rw [hn, hids]
      show some (n :: rest, _, (⟨((ms.assigned ++ [j]) ++ idsL n.children) ++ idsL rest,
          ms.used, ms.counter⟩ : MState))
        = some (n :: rest, _, (⟨ms.assigned ++ (j :: (idsL n.children ++ idsL rest)),
          ms.used, ms.counter⟩ : MState))
      rw [List.append_assoc, ← List.append_cons]
      rfl

/-- Rebuilding over a forest that already carries stable ids replaces
only the three indexes (with their canonical contents) and touches
nothing else. -/
theorem buildNodeDataMap_stable (ent : Nat → Str) (st : TState)
    (h1 : ∀ n ∈ subnodesList st.data, n.internalId.isSome ∧ n.internalId.getD [] ≠ [])
    (h2 : (idsL st.data).Nodup)
    (h3 : ∀ i ∈ idsL st.data, i ∈ st.usedInternalIds) :
    buildNodeDataMap ent st = some { st with
      nodeDataMap := foldNodeDataMap (entriesSpec st.data),
      internalIdMap := foldInternalIdMap (entriesSpec st.data),
      nodeToInternalIdMap := foldNodeToInternalIdMap (entriesSpec st.data) } := by
  unfold buildNodeDataMap
  rw [mapNodes_stable ent (sizeOf st.data) st.data ⟨[], st.usedInternalIds, st.internalIdCounter⟩
    le_rfl h1 (by rw [List.nil_append]; exact h2) h3]
  rfl

/-- What any successful rebuild guarantees about the resulting state. -/
theorem buildNodeDataMap_spec (ent : Nat → Str) (st st' : TState)
    (h : buildNodeDataMap ent st = some st') :
    (∀ n ∈ subnodesList st'.data, n.internalId.isSome ∧ n.internalId.getD [] ≠ [])
    ∧ (idsL st'.data).Nodup
    ∧ (∀ i ∈ idsL st'.data, i ∈ st'.usedInternalIds)
    ∧ (∀ x ∈ st.usedInternalIds, x ∈ st'.usedInternalIds)
    ∧ st'.internalIdMap
        = buildMap ((subnodesList st'.data).map (fun n => (n.internalId.getD [], n)))
    ∧ st'.nodeToInternalIdMap
        = buildMap ((subnodesList st'.data).map (fun n => (n, n.internalId.getD [])))
    ∧ (∀ k v, mapGet st'.nodeDataMap k = some v → v ∈ subnodesList st'.data)
    ∧ st'.selectedNodes = st.selectedNodes ∧ st'.expandedNodes = st.expandedNodes
    ∧ st'.searchTerm = st.searchTerm ∧ st'.displayField = st.displayField
    ∧ st'.filteredData = st.filteredData ∧ st'.pageSize = st.pageSize
    ∧ st'.showPagination = st.showPagination := by
  unfold buildNodeDataMap at h
  cases hm : mapNodes ent st.data ⟨[], st.usedInternalIds, st.internalIdCounter⟩ with
  | none => rw [hm] at h; exact Option.noConfusion h
  | some r =>
    rw [hm] at h
    obtain ⟨ns', es, msf⟩ := r
    simp only [Option.map] at h
    injection h with h
    subst h
    have hminv : MInv ⟨[], st.usedInternalIds, st.internalIdCounter⟩ :=
      ⟨List.nodup_nil, fun a ha => absurd ha (List.not_mem_nil a)⟩
    have hs := mapNodes_spec ent st.data _ ns' es msf hm hminv
    have hassigned : msf.assigned = idsL ns' := by
      rw [hs.1, List.nil_append]
    have hpairs := hs.2.2.2.2.1
    have hswap : es.map (fun e => (e.2.2, e.2.1))
        = (subnodesList ns').map (fun n => (n, n.internalId.getD [])) := by
      have h2 := congrArg (List.map (Prod.swap (α := Str) (β := Node))) hpairs
      rw [List.map_map, List.map_map] at h2
      exact h2
    refine ⟨hs.2.2.2.1, ?_, ?_, ?_, ?_, ?_, ?_, rfl, rfl, rfl, rfl, rfl, rfl, rfl⟩
    · rw [← hassigned]
      exact hs.2.1.1
    · intro i hi
      exact hs.2.1.2 i (hassigned ▸ hi)
    · exact hs.2.2.1
    · show foldInternalIdMap es = _
      unfold foldInternalIdMap
      rw [hpairs]
    · show foldNodeToInternalIdMap es = _
      unfold foldNodeToInternalIdMap
      rw [hswap]
    · intro k v hget
      have hmem := mapGet_buildMap_mem _ k v hget
      rw [List.mem_map] at hmem
      obtain ⟨e, he, heq⟩ := hmem
      have : (e.2.1, e.2.2) ∈ es.map (fun e => (e.2.1, e.2.2)) :=
        List.mem_map_of_mem _ he
      rw [hpairs, List.mem_map] at this
      obtain ⟨m, hmmem, hmeq⟩ := this
      have hv : v = e.2.2 := by
        have := congrArg Prod.snd heq
        exact this.symm
      have hm2 : m = e.2.2 := by
        have := congrArg Prod.snd hmeq
        exact this
      rw [hv, ← hm2]
      exact hmmem

/-- C6 (amended): a second rebuild reproduces the forest, the internal-id
assignments, the internal-id index, the node index and the used-id set of
the first exactly, and from the second run on `buildNodeDataMap` is a
fixpoint (a third run changes nothing at all); only the natural-key index
may differ between the first and second run, for nodes lacking a
caller-supplied id, because the first rebuild writes the fresh internal id
into the node and the derived key serializes it (see the
counterexample). -/
theorem c6_rebuild_idempotent (ent : Nat → Str) (s0 s1 s2 : TState)
    (h1 : buildNodeDataMap ent s0 = some s1)
    (h2 : buildNodeDataMap ent s1 = some s2) :
    s2.data = s1.data
    ∧ s2.internalIdMap = s1.internalIdMap
    ∧ s2.nodeToInternalIdMap = s1.nodeToInternalIdMap
    ∧ s2.usedInternalIds = s1.usedInternalIds
    ∧ s2.internalIdCounter = s1.internalIdCounter
    ∧ buildNodeDataMap ent s2 = some s2 := by
  have hs1 := buildNodeDataMap_spec ent s0 s1 h1
  have hstable := buildNodeDataMap_stable ent s1 hs1.1 hs1.2.1 hs1.2.2.1
  rw [hstable] at h2
  injection h2 with h2
  subst h2
  refine ⟨rfl, ?_, ?_, rfl, rfl, ?_⟩
  · show foldInternalIdMap (entriesSpec s1.data) = s1.internalIdMap
    unfold foldInternalIdMap
    rw [entriesSpec_pairs, ← hs1.2.2.2.2.1]
  · show foldNodeToInternalIdMap (entriesSpec s1.data) = s1.nodeToInternalIdMap
    unfold foldNodeToInternalIdMap
    rw [entriesSpec_pairs_swap, ← hs1.2.2.2.2.2.1]
  · exact buildNodeDataMap_stable ent _ hs1.1 hs1.2.1 hs1.2.2.1

/-- C6 counterexample: rebuilding twice does not reproduce the natural-key
index of rebuilding once.  The first rebuild of a forest holding the
single id-less node `n0` keys it as "node_namex"; the second serializes
the now-present `_internalId` into the derived key, which becomes
"node_namexinter", so the key "node_namex" is gone. -/
theorem c6_rebuild_counterexample :
    buildNodeDataMap ent0 st0 = some s1c
    ∧ buildNodeDataMap ent0 s1c = some s2c
    ∧ mapGet s1c.nodeDataMap (str "node_namex") = some nodeX
    ∧ mapGet s2c.nodeDataMap (str "node_namex") = none
    ∧ ¬(s2c.nodeDataMap = s1c.nodeDataMap) := by
  refine ⟨?_, ?_, rfl, rfl, ?_⟩
  · simp only [buildNodeDataMap, st0, n0, mapNodes, idStep, getNodeKey, lookupField,
      derivedKey, serializeNode, serializeList]
    rfl
  · simp only [buildNodeDataMap, s1c, nodeX, mapNodes, idStep, getNodeKey, lookupField,
      derivedKey, serializeNode, serializeList]
    rfl
  · intro h
    simp only [s2c, s1c, List.cons.injEq, Prod.mk.injEq] at h
    exact absurd h.1.1 (by decide)

/-- C6 witness: the concrete one-node registry, rebuilt twice, then shown
to be a fixpoint of a third rebuild. -/
theorem c6_rebuild_idempotent_witness :
    (buildNodeDataMap ent0 st0 = some s1c ∧ buildNodeDataMap ent0 s1c = some s2c)
    ∧ (s2c.data = s1c.data
        ∧ s2c.internalIdMap = s1c.internalIdMap
        ∧ s2c.nodeToInternalIdMap = s1c.nodeToInternalIdMap
        ∧ s2c.usedInternalIds = s1c.usedInternalIds
        ∧ s2c.internalIdCounter = s1c.internalIdCounter
        ∧ buildNodeDataMap ent0 s2c = some s2c) :=
  ⟨⟨by simp only [buildNodeDataMap, st0, n0, mapNodes, idStep, getNodeKey, lookupField,
        derivedKey, serializeNode, serializeList]; rfl,
    by simp only [buildNodeDataMap, s1c, nodeX, mapNodes, idStep, getNodeKey, lookupField,
        derivedKey, serializeNode, serializeList]; rfl⟩,
    c6_rebuild_idempotent ent0 st0 s1c s2c
      (by simp only [buildNodeDataMap, st0, n0, mapNodes, idStep, getNodeKey, lookupField,
        derivedKey, serializeNode, serializeList]; rfl)
      (by simp only [buildNodeDataMap, s1c, nodeX, mapNodes, idStep, getNodeKey, lookupField,
        derivedKey, serializeNode, serializeList]; rfl)⟩

theorem idsL_nil : idsL [] = [] := by simp [idsL, subnodesList]

theorem subnodesList_nil : subnodesList [] = [] := by rw [subnodesList]

/-- C10: `addNode` treats `0`, `null` and `undefined` as the root
sentinel: it inserts the (shallow-copied) new node into the root
sequence at the requested position and returns the freshly generated
internal id.  Any other parent id that does not resolve in the
internal-id index makes it return `null` with the forest, all three
indexes and the selection untouched — but the generated internal id
stays consumed in the allocator's used set. -/
theorem c10_addNode (ent : Nat → Str) (st : TState) (u : RecordData) (iid : Str) (stg : TState)
    (hWF1 : ∀ n ∈ subnodesList st.data, n.internalId.isSome ∧ n.internalId.getD [] ≠ [])
    (hWF2 : (idsL st.data).Nodup)
    (hWF3 : ∀ i ∈ idsL st.data, i ∈ st.usedInternalIds)
    (hgen : generateInternalId ent st = some (iid, stg))
    (hchn : u.children = none) :
    (∀ (p : ParentRef) (pos : Position), isRootSentinel p = true →
      ∃ st', addNode ent p u pos st = some (some iid, st')
        ∧ st'.data = addToRootLevel (mkNewNode u iid) pos st.data)
    ∧ (∀ (q : Str) (pos : Position), mapGet st.internalIdMap q = none →
        addNode ent (ParentRef.pid q) u pos st = some (none, stg)
        ∧ stg.data = st.data ∧ stg.nodeDataMap = st.nodeDataMap
        ∧ stg.internalIdMap = st.internalIdMap
        ∧ stg.nodeToInternalIdMap = st.nodeToInternalIdMap
        ∧ stg.selectedNodes = st.selectedNodes ∧ stg.expandedNodes = st.expandedNodes
        ∧ iid ∈ stg.usedInternalIds ∧ iid ∉ st.usedInternalIds) := by
  obtain ⟨hfresh, hne, hst⟩ := generateInternalId_spec ent st iid stg hgen
  have hnode : mkNewNode u iid = { fields := u.fields, internalId := some iid, children := [] } := by
    rw [mkNewNode, hchn]
    rfl
  have hiidnot : iid ∉ idsL st.data := fun hm => hfresh (hWF3 iid hm)
  constructor
  · intro p pos hsent
    have hrt : ∃ st3,
        refreshTree ent { stg with data := addToRootLevel (mkNewNode u iid) pos stg.data }
          = some st3
        ∧ st3.data = addToRootLevel (mkNewNode u iid) pos st.data := by
      have hdata : stg.data = st.data := by rw [hst]
      have h1 : ∀ n ∈ subnodesList (addToRootLevel (mkNewNode u iid) pos st.data),
          n.internalId.isSome ∧ n.internalId.getD [] ≠ [] := by
        intro m hm
        cases pos <;>
          simp only [addToRootLevel, hnode, subnodesList_append, subnodesList, subnodesList_nil,
            List.nil_append, List.append_nil] at hm
        case first =>
          rcases List.mem_cons.mp hm with hm | hm
          · subst hm
            exact ⟨rfl, hne⟩
          · exact hWF1 m hm
        all_goals
          rcases List.mem_append.mp hm with hm | hm
          · exact hWF1 m hm
          · rw [List.mem_singleton] at hm
            subst hm
            exact ⟨rfl, hne⟩
      have h2 : (idsL (addToRootLevel (mkNewNode u iid) pos st.data)).Nodup := by
        cases pos <;>
          simp only [addToRootLevel, hnode, idsL_append, idsL_cons, idsL_nil,
            List.nil_append, List.append_nil, Option.getD_some]
        case first =>
          exact List.nodup_cons.mpr ⟨hiidnot, hWF2⟩
        all_goals
          refine List.Nodup.append hWF2 (List.nodup_singleton _) ?_
          intro a ha hb
          rw [List.mem_singleton] at hb
          subst hb
          exact hiidnot ha
      have h3 : ∀ i ∈ idsL (addToRootLevel (mkNewNode u iid) pos st.data),
          i ∈ setAdd st.usedInternalIds iid := by
        intro i hi
        cases pos <;>
          simp only [addToRootLevel, hnode, idsL_append, idsL_cons, idsL_nil,
            List.nil_append, List.append_nil, Option.getD_some] at hi
        case first =>
          rcases List.mem_cons.mp hi with hi | hi
          · subst hi
            exact mem_setAdd_self _ _
          · exact setAdd_sub _ _ i (hWF3 i hi)
        all_goals
          rcases List.mem_append.mp hi with hi | hi
          · exact setAdd_sub _ _ i (hWF3 i hi)
          · rw [List.mem_singleton] at hi
            subst hi
            exact mem_setAdd_self _ _
      rw [hst]
      simp only [refreshTree]
      rw [buildNodeDataMap_stable ent _ h1 h2 h3]
      exact ⟨_, rfl, (updateTreeContent_frame _).1⟩
    obtain ⟨st3, hrt1, hrt2⟩ := hrt
    cases p with
    | pid q => rw [isRootSentinel] at hsent; exact Bool.noConfusion hsent
    | zero =>
      refine ⟨st3, ?_, hrt2⟩
      simp only [addNode, hgen]
      rw [hrt1]
      rfl
    | null =>
      refine ⟨st3, ?_, hrt2⟩
      simp only [addNode, hgen]
      rw [hrt1]
      rfl
    | undef =>
      refine ⟨st3, ?_, hrt2⟩
      simp only [addNode, hgen]
      rw [hrt1]
      rfl
  · intro q pos hnone
    have hmap : stg.internalIdMap = st.internalIdMap := by rw [hst]
    refine ⟨?_, by rw [hst], by rw [hst], hmap, by rw [hst], by rw [hst], by rw [hst],
      by rw [hst]; exact mem_setAdd_self _ _, hfresh⟩
    simp only [addNode, hgen, hmap, hnone]

/-- C10 witness: adding to the empty registry under each root sentinel,
and with an unresolvable parent id. -/
theorem c10_addNode_witness :
    ((∀ n ∈ subnodesList stEmpty.data, n.internalId.isSome ∧ n.internalId.getD [] ≠ [])
      ∧ (idsL stEmpty.data).Nodup
      ∧ (∀ i ∈ idsL stEmpty.data, i ∈ stEmpty.usedInternalIds)
      ∧ generateInternalId ent0 stEmpty = some (str "1_e", stgE)
      ∧ u0.children = none)
    ∧ ((∀ (p : ParentRef) (pos : Position), isRootSentinel p = true →
          ∃ st', addNode ent0 p u0 pos stEmpty = some (some (str "1_e"), st')
            ∧ st'.data = addToRootLevel (mkNewNode u0 (str "1_e")) pos stEmpty.data)
      ∧ (∀ (q : Str) (pos : Position), mapGet stEmpty.internalIdMap q = none →
          addNode ent0 (ParentRef.pid q) u0 pos stEmpty = some (none, stgE)
          ∧ stgE.data = stEmpty.data
          ∧ stgE.nodeDataMap = stEmpty.nodeDataMap
          ∧ stgE.internalIdMap = stEmpty.internalIdMap
          ∧ stgE.nodeToInternalIdMap = stEmpty.nodeToInternalIdMap
          ∧ stgE.selectedNodes = stEmpty.selectedNodes
          ∧ stgE.expandedNodes = stEmpty.expandedNodes
          ∧ str "1_e" ∈ stgE.usedInternalIds
          ∧ str "1_e" ∉ stEmpty.usedInternalIds)) :=
  ⟨⟨fun n hn => absurd ((subnodesList_nil ▸ hn : n ∈ ([] : List Node))) (List.not_mem_nil n),
    by rw [show stEmpty.data = [] from rfl, idsL_nil]; exact List.nodup_nil,
    fun i hi => absurd ((idsL_nil ▸ hi : i ∈ ([] : List Str))) (List.not_mem_nil i),
    rfl, rfl⟩,
    c10_addNode ent0 stEmpty u0 (str "1_e") stgE
      (fun n hn => absurd ((subnodesList_nil ▸ hn : n ∈ ([] : List Node))) (List.not_mem_nil n))
      (by rw [show stEmpty.data = [] from rfl, idsL_nil]; exact List.nodup_nil)
      (fun i hi => absurd ((idsL_nil ▸ hi : i ∈ ([] : List Str))) (List.not_mem_nil i))
      rfl rfl⟩

/-- A top-level node carrying a fresh non-empty id (recorded in `used`,
absent from `assigned` and from the ids of the nodes before it) keeps
that id through a `mapNodes` pass: the id is among the ids of the
resulting forest. -/
theorem mapNodes_keeps (ent : Nat → Str) (j : Str) :
    ∀ (l1 : List Node) (n : Node) (rest : List Node) (ms : MState)
      (ns' : List Node) (es : List (Str × Str × Node)) (ms' : MState),
      mapNodes ent (l1 ++ n :: rest) ms = some (ns', es, ms') →
      MInv ms →
      n.internalId = some j → j ≠ [] →
      j ∉ ms.assigned → j ∈ ms.used → j ∉ idsL l1 →
      j ∈ idsL ns' := by
  intro l1
  induction l1 with
  | nil =>
    intro n rest ms ns' es ms' h hinv hn hne hnass hused hnl1
    rw [List.nil_append] at h
    have hidstep : idStep ent n ms = some (j, { ms with used := setAdd ms.used j }) := by
      simp only [idStep, hn]
      rw [decide_eq_false hne, setMem_false_of_not_mem hnass]
      simp only [Bool.or_false, Bool.false_eq_true, if_false]
    simp only [mapNodes, hidstep] at h
    cases hch : mapNodes ent n.children
        { assigned := ms.assigned ++ [j], used := setAdd ms.used j, counter := ms.counter } with
    | none => simp only [hch] at h; exact Option.noConfusion h
    | some r =>
      obtain ⟨cs, ces, ms2⟩ := r
      simp only [hch] at h
      cases hrest : mapNodes ent rest ms2 with
      | none => simp only [hrest] at h; exact Option.noConfusion h
      | some r2 =>
        obtain ⟨rs, res, ms3⟩ := r2
        simp only [hrest] at h
        injection h with h1
        injection h1 with h1 h2
        injection h2 with h2 h3
        subst h1
        rw [idsL_cons]
        exact List.mem_cons_self _ _
  | cons m l1' ih =>
    intro n rest ms ns' es ms' h hinv hn hne hnass hused hnl1
    rw [List.cons_append] at h
    have hjm : j ∉ idsL [] ++ (idsL m.children ++ idsL l1') ∧ j ≠ m.internalId.getD [] := by
      rw [idsL_cons] at hnl1
      constructor
      · intro hj
        rw [idsL_nil, List.nil_append] at hj
        exact hnl1 (List.mem_cons_of_mem _ hj)
      · intro hj
        exact hnl1 (hj ▸ List.mem_cons_self _ _)
    cases hid : idStep ent m ms with
    | none => simp only [mapNodes, hid] at h; exact Option.noConfusion h
    | some p =>
      obtain ⟨jm, ms1⟩ := p
      simp only [mapNodes, hid] at h
      cases hch : mapNodes ent m.children
          { assigned := ms1.assigned ++ [jm], used := ms1.used, counter := ms1.counter } with
      | none => simp only [hch] at h; exact Option.noConfusion h
      | some r =>
        obtain ⟨cs, ces, ms2⟩ := r
        simp only [hch] at h
        cases hrest : mapNodes ent (l1' ++ n :: rest) ms2 with
        | none => simp only [hrest] at h; exact Option.noConfusion h
        | some r2 =>
          obtain ⟨rs, res, ms3⟩ := r2
          simp only [hrest] at h
          injection h with h1
          injection h1 with h1 h2
          injection h2 with h2 h3
          subst h1
          have hstep := idStep_spec ent m ms jm ms1 hid hinv.2
          have hjne : j ≠ jm := by
            rcases hstep.2.2.2.2.2 with hk | hk
            · rw [hk]
              exact hjm.2
            · intro hj
              exact hk (hj ▸ hused)
          have hinv1 : MInv { ms1 with assigned := ms1.assigned ++ [jm] } := by
            constructor
            · rw [hstep.2.2.1]
              refine List.Nodup.append hinv.1 (List.nodup_singleton jm) ?_
              intro a ha hb
              rw [List.mem_singleton] at hb
              subst hb
              exact hstep.1 ha
            · intro a ha
              rw [hstep.2.2.1] at ha
              rcases List.mem_append.mp ha with ha | ha
              · exact hstep.2.2.2.1 a (hinv.2 a ha)
              · rw [List.mem_singleton] at ha
                subst ha
                exact hstep.2.2.2.2.1
          have hcspec := mapNodes_spec ent m.children _ cs ces ms2 hch hinv1
          have hjms2 : j ∈ ms2.used := hcspec.2.2.1 j (hstep.2.2.2.1 j hused)
          have hjass2 : j ∉ ms2.assigned := by
            rw [hcspec.1]
            intro hj
            rcases List.mem_append.mp hj with hj | hj
            · rw [hstep.2.2.1] at hj
              rcases List.mem_append.mp hj with hj | hj
              · exact hnass hj
              · rw [List.mem_singleton] at hj
                exact hjne hj
            · rcases hcspec.2.2.2.2.2 j hj with hk | hk
              · rw [idsL_cons] at hnl1
                exact hnl1 (List.mem_cons_of_mem _ (List.mem_append_left _ hk))
              · exact hk (hstep.2.2.2.1 j hused)
          have hjl1' : j ∉ idsL l1' := by
            rw [idsL_cons] at hnl1
            intro hj
            exact hnl1 (List.mem_cons_of_mem _ (List.mem_append_right _ hj))
          have := ih n rest ms2 rs res ms3 hrest hcspec.2.1 hn hne hjass2 hjms2 hjl1'
          rw [idsL_cons]
          exact List.mem_cons_of_mem _ (List.mem_append_right _ this)

/-! ### Removal lemmas -/

theorem perm_insert_head (g : Str) (A B T R : List Str) (h : List.Perm A (T ++ B)) :
    List.Perm (g :: (A ++ R)) (T ++ (g :: (B ++ R))) := by
  refine List.Perm.trans (List.Perm.cons g (h.append_right R)) ?_
  rw [List.append_assoc]
  exact List.perm_middle.symm

theorem perm_insert_tail (g : Str) (C T R R' : List Str) (h : List.Perm R (T ++ R')) :
    List.Perm (g :: (C ++ R)) (T ++ (g :: (C ++ R'))) := by
  refine List.Perm.trans (List.Perm.cons g (List.Perm.append_left C h)) ?_
  refine List.Perm.trans ?_ List.perm_middle.symm
  rw [← List.append_assoc, ← List.append_assoc]
  exact List.Perm.cons g (List.perm_append_comm.append_right R')

theorem removeFromNodes_perm (t : Node) : ∀ (ns : List Node), ∀ (ns' : List Node),
    removeFromNodes t ns = some ns' → List.Perm (idsL ns) (idsL [t] ++ idsL ns') := by
  intro ns
  induction ns using removeFromNodes.induct t with
  | case1 =>
    intro ns' h
    rw [removeFromNodes] at h
    exact Option.noConfusion h
  | case2 rest =>
    intro ns' h
    have heq : removeFromNodes t (t :: rest) = some rest := by
      simp [removeFromNodes]
    rw [heq] at h
    injection h with h1
    subst h1
    simp only [idsL_cons, idsL_nil, List.append_nil, List.nil_append, List.cons_append]
    exact List.Perm.refl _
  | case3 n rest hne rest' hch ihc =>
    intro ns' h
    have heq : removeFromNodes t (n :: rest)
        = some ({ n with children := rest' } :: rest) := by
      simp only [removeFromNodes, if_neg hne, hch]
    rw [heq] at h
    injection h with h1
    subst h1
    have key := perm_insert_head (n.internalId.getD []) (idsL n.children) (idsL rest')
      (idsL [t]) (idsL rest) (ihc rest' hch)
    nth_rewrite 3 [idsL_cons]
    nth_rewrite 1 [idsL_cons]
    exact key
  | case4 n rest hne hchn rest' hrest ihc ihr =>
    intro ns' h
    have heq : removeFromNodes t (n :: rest) = some (n :: rest') := by
      simp only [removeFromNodes, if_neg hne, hchn, hrest]
    rw [heq] at h
    injection h with h1
    subst h1
    have key := perm_insert_tail (n.internalId.getD []) (idsL n.children) (idsL [t])
      (idsL rest) (idsL rest') (ihr rest' hrest)
    nth_rewrite 3 [idsL_cons]
    nth_rewrite 1 [idsL_cons]
    exact key
  | case5 n rest hne hchn hrestn ihc ihr =>
    intro ns' h
    have heq : removeFromNodes t (n :: rest) = none := by
      simp only [removeFromNodes, if_neg hne, hchn, hrestn]
    rw [heq] at h
    exact Option.noConfusion h

theorem removeFromNodes_total (t : Node) : ∀ (ns : List Node),
    t ∈ subnodesList ns → (removeFromNodes t ns).isSome := by
  intro ns
  induction ns using removeFromNodes.induct t with
  | case1 =>
    intro hmem
    rw [subnodesList] at hmem
    exact absurd hmem (List.not_mem_nil t)
  | case2 rest =>
    intro _
    have heq : removeFromNodes t (t :: rest) = some rest := by
      simp [removeFromNodes]
    rw [heq]
    rfl
  | case3 n rest hne rest' hch ihc =>
    intro _
    have heq : removeFromNodes t (n :: rest)
        = some ({ n with children := rest' } :: rest) := by
      simp only [removeFromNodes, if_neg hne, hch]
    rw [heq]
    rfl
  | case4 n rest hne hchn rest' hrest ihc ihr =>
    intro _
    have heq : removeFromNodes t (n :: rest) = some (n :: rest') := by
      simp only [removeFromNodes, if_neg hne, hchn, hrest]
    rw [heq]
    rfl
  | case5 n rest hne hchn hrestn ihc ihr =>
    intro hmem
    rw [subnodesList] at hmem
    rcases List.mem_cons.mp hmem with hmem | hmem
    · exact absurd hmem.symm hne
    · rcases List.mem_append.mp hmem with hmem | hmem
      · rw [hchn] at ihc
        exact absurd (ihc hmem) (by simp)
      · rw [hrestn] at ihr
        exact absurd (ihr hmem) (by simp)

/-! ### Cleanup lemmas -/

theorem keysL_nil : keysL [] = [] := by simp [keysL, subnodesList]

theorem cleanupList_frame : ∀ (ns : List Node) (st : TState),
    (cleanupList ns st).data = st.data
    ∧ (cleanupList ns st).usedInternalIds = st.usedInternalIds
    ∧ (cleanupList ns st).searchTerm = st.searchTerm
    ∧ (cleanupList ns st).displayField = st.displayField
    ∧ (cleanupList ns st).filteredData = st.filteredData
    ∧ (cleanupList ns st).internalIdCounter = st.internalIdCounter
    ∧ (cleanupList ns st).pageSize = st.pageSize
    ∧ (cleanupList ns st).showPagination = st.showPagination := by
  intro ns st
  induction ns, st using cleanupList.induct with
  | case1 st => rw [cleanupList]; exact ⟨rfl, rfl, rfl, rfl, rfl, rfl, rfl, rfl⟩
  | case2 n rest st ih1 ih2 =>
    rw [cleanupList]
    refine ⟨?_, ?_, ?_, ?_, ?_, ?_, ?_, ?_⟩
    · rw [ih2.1, ih1.1]; rfl
    · rw [ih2.2.1, ih1.2.1]; rfl
    · rw [ih2.2.2.1, ih1.2.2.1]; rfl
    · rw [ih2.2.2.2.1, ih1.2.2.2.1]; rfl
    · rw [ih2.2.2.2.2.1, ih1.2.2.2.2.1]; rfl
    · rw [ih2.2.2.2.2.2.1, ih1.2.2.2.2.2.1]; rfl
    · rw [ih2.2.2.2.2.2.2.1, ih1.2.2.2.2.2.2.1]; rfl
    · rw [ih2.2.2.2.2.2.2.2, ih1.2.2.2.2.2.2.2]; rfl

theorem cleanupList_selected : ∀ (ns : List Node) (st : TState) (k : Str),
    k ∈ (cleanupList ns st).selectedNodes ↔ (k ∈ st.selectedNodes ∧ k ∉ keysL ns) := by
  intro ns st k
  induction ns, st using cleanupList.induct with
  | case1 st => rw [cleanupList, keysL_nil]; simp
  | case2 n rest st ih1 ih2 =>
    rw [cleanupList, ih2, ih1, keysL_cons]
    have hdel : (deleteEntriesFor n st).selectedNodes
        = setRemove st.selectedNodes (getNodeKey n) := rfl
    rw [hdel, mem_setRemove]
    simp only [List.mem_cons, List.mem_append]
    tauto

theorem cleanupList_expanded : ∀ (ns : List Node) (st : TState) (k : Str),
    k ∈ (cleanupList ns st).expandedNodes ↔ (k ∈ st.expandedNodes ∧ k ∉ keysL ns) := by
  intro ns st k
  induction ns, st using cleanupList.induct with
  | case1 st => rw [cleanupList, keysL_nil]; simp
  | case2 n rest st ih1 ih2 =>
    rw [cleanupList, ih2, ih1, keysL_cons]
    have hdel : (deleteEntriesFor n st).expandedNodes
        = setRemove st.expandedNodes (getNodeKey n) := rfl
    rw [hdel, mem_setRemove]
    simp only [List.mem_cons, List.mem_append]
    tauto

/-! ### Dissection of `refreshTree` and `buildNodeDataMap` calls -/

theorem refreshTree_split (ent : Nat → Str) (s s3 : TState)
    (h : refreshTree ent s = some s3) :
    ∃ sb, buildNodeDataMap ent
        { s with filteredData := filterNodes s.displayField s.searchTerm s.data } = some sb
      ∧ s3 = updateTreeContent sb := by
  simp only [refreshTree] at h
  cases hb : buildNodeDataMap ent
      { s with filteredData := filterNodes s.displayField s.searchTerm s.data } with
  | none => rw [hb] at h; exact Option.noConfusion h
  | some sb =>
    rw [hb] at h
    simp only [Option.map] at h
    injection h with h
    exact ⟨sb, rfl, h.symm⟩

theorem buildNodeDataMap_split (ent : Nat → Str) (s sb : TState)
    (h : buildNodeDataMap ent s = some sb) :
    ∃ r, mapNodes ent s.data ⟨[], s.usedInternalIds, s.internalIdCounter⟩ = some r
      ∧ sb.data = r.1 := by
  unfold buildNodeDataMap at h
  cases hm : mapNodes ent s.data ⟨[], s.usedInternalIds, s.internalIdCounter⟩ with
  | none => rw [hm] at h; exact Option.noConfusion h
  | some r =>
    rw [hm] at h
    simp only [Option.map] at h
    injection h with h
    subst h
    exact ⟨r, rfl, rfl⟩

/-- Removing a registered node from a well-formed state succeeds and
leaves no trace of the removed subtree in any index or marker set. -/
theorem remove_purges (ent : Nat → Str) (iid : Str) (st1 : TState) (target : Node)
    (hWF1 : ∀ n ∈ subnodesList st1.data, n.internalId.isSome ∧ n.internalId.getD [] ≠ [])
    (hWF2 : (idsL st1.data).Nodup)
    (hWF3 : ∀ i ∈ idsL st1.data, i ∈ st1.usedInternalIds)
    (hne : iid ≠ [])
    (hget : mapGet st1.internalIdMap iid = some target)
    (hmem : target ∈ subnodesList st1.data) :
    ∃ st2, removeNodeByInternalId ent iid st1 = some (true, st2)
      ∧ (∀ d ∈ subnodesList [target],
          (∀ k v, mapGet st2.nodeDataMap k = some v → v ≠ d)
          ∧ mapGet st2.internalIdMap (d.internalId.getD []) = none
          ∧ mapGet st2.nodeToInternalIdMap d = none
          ∧ getNodeKey d ∉ st2.selectedNodes
          ∧ getNodeKey d ∉ st2.expandedNodes)
      ∧ (∀ x ∈ st1.usedInternalIds, x ∈ st2.usedInternalIds) := by
  obtain ⟨data', hdata'⟩ : ∃ d', removeFromNodes target st1.data = some d' := by
    have hrem := removeFromNodes_total target st1.data hmem
    cases hx : removeFromNodes target st1.data with
    | none => rw [hx] at hrem; exact absurd hrem (by simp)
    | some d' => exact ⟨d', rfl⟩
  have hperm := removeFromNodes_perm target st1.data data' hdata'
  have hndall : (idsL [target] ++ idsL data').Nodup := (hperm.nodup_iff).mp hWF2
  have hnddisj := List.nodup_append.mp hndall
  have hsub : ∀ x ∈ idsL data', x ∈ idsL st1.data := fun x hx =>
    hperm.mem_iff.mpr (List.mem_append_right _ hx)
  have hdnotin : ∀ d ∈ subnodesList [target], d ∉ subnodesList data' := by
    intro d hd hdin
    exact hnddisj.2.2
      (show d.internalId.getD [] ∈ idsL [target] from List.mem_map_of_mem _ hd)
      (show d.internalId.getD [] ∈ idsL data' from List.mem_map_of_mem _ hdin)
  have h1' : ∀ m ∈ subnodesList data', m.internalId.isSome ∧ m.internalId.getD [] ≠ [] := by
    intro m hm
    have hub : m.internalId.getD [] ∈ idsL st1.data :=
      hsub _ (List.mem_map_of_mem _ hm)
    simp only [idsL, List.mem_map] at hub
    obtain ⟨n2, hn2, he⟩ := hub
    have hw := hWF1 n2 hn2
    refine ⟨?_, he ▸ hw.2⟩
    cases hx : m.internalId with
    | some _ => rfl
    | none =>
      exfalso
      rw [hx] at he
      exact hw.2 he
  have h3' : ∀ i ∈ idsL data', i ∈ st1.usedInternalIds := fun i hi => hWF3 i (hsub i hi)
  have hnd' : (idsL data').Nodup := hnddisj.2.1
  set stc := cleanupList [target] { st1 with data := data' } with hstc
  have hcdata : stc.data = data' := (cleanupList_frame [target] _).1
  have hcused : stc.usedInternalIds = st1.usedInternalIds := (cleanupList_frame [target] _).2.1
  set st2p := { stc with filteredData := filterNodes stc.displayField stc.searchTerm stc.data }
    with hst2p
  have h1p : ∀ m ∈ subnodesList st2p.data, m.internalId.isSome ∧ m.internalId.getD [] ≠ [] := by
    intro m hm
    rw [show st2p.data = data' from hcdata] at hm
    exact h1' m hm
  have h2p : (idsL st2p.data).Nodup := by
    rw [show st2p.data = data' from hcdata]
    exact hnd'
  have h3p : ∀ i ∈ idsL st2p.data, i ∈ st2p.usedInternalIds := by
    rw [show st2p.data = data' from hcdata,
      show st2p.usedInternalIds = st1.usedInternalIds from hcused]
    exact h3'
  have hbuild := buildNodeDataMap_stable ent st2p h1p h2p h3p
  set R := { st2p with
      nodeDataMap := foldNodeDataMap (entriesSpec st2p.data),
      internalIdMap := foldInternalIdMap (entriesSpec st2p.data),
      nodeToInternalIdMap := foldNodeToInternalIdMap (entriesSpec st2p.data) } with hRdef
  have hbuild2 : buildNodeDataMap ent st2p = some R := hbuild
  have hRdata : R.data = data' := hcdata
  have hspec := buildNodeDataMap_spec ent st2p R hbuild2
  have hufr := updateTreeContent_frame R
  refine ⟨updateTreeContent R, ?_, ?_, ?_⟩
  · have hkey : removeNodeByInternalId ent iid st1
        = (buildNodeDataMap ent st2p).map (fun st3 => (true, updateTreeContent st3)) := by
      simp only [removeNodeByInternalId, if_neg hne, hget, hdata']
      rfl
    rw [hkey, hbuild2]
    rfl
  · intro d hd
    have hdid : d.internalId.getD [] ∈ idsL [target] := List.mem_map_of_mem _ hd
    refine ⟨?_, ?_, ?_, ?_, ?_⟩
    · intro k v hgv heq
      subst heq
      rw [hufr.2.2.2.2.1] at hgv
      have hv := hspec.2.2.2.2.2.2.1 k v hgv
      rw [hRdata] at hv
      exact hdnotin v hd hv
    · rw [hufr.2.2.2.2.2.1, hspec.2.2.2.2.1]
      refine mapGet_buildMap_eq_none _ _ ?_
      intro e he heq
      rw [List.mem_map] at he
      obtain ⟨m, hm, rfl⟩ := he
      rw [hRdata] at hm
      refine hnddisj.2.2 hdid ?_
      rw [← heq]
      exact List.mem_map_of_mem _ hm
    · rw [hufr.2.2.2.2.2.2.1, hspec.2.2.2.2.2.1]
      refine mapGet_buildMap_eq_none _ _ ?_
      intro e he heq
      rw [List.mem_map] at he
      obtain ⟨m, hm, rfl⟩ := he
      rw [hRdata] at hm
      rw [show m = d from heq] at hm
      exact hdnotin d hd hm
    · rw [hufr.2.2.1]
      have hRsel : R.selectedNodes = stc.selectedNodes := rfl
      rw [hRsel]
      intro hin
      have hch := (cleanupList_selected [target] { st1 with data := data' } (getNodeKey d)).mp hin
      exact hch.2 (List.mem_map_of_mem _ hd)
    · rw [hufr.2.2.2.1]
      have hRexp : R.expandedNodes = stc.expandedNodes := rfl
      rw [hRexp]
      intro hin
      have hch := (cleanupList_expanded [target] { st1 with data := data' } (getNodeKey d)).mp hin
      exact hch.2 (List.mem_map_of_mem _ hd)
  · intro x hx
    rw [hufr.2.2.2.2.2.2.2.1]
    have hRused : R.usedInternalIds = st1.usedInternalIds := hcused
    rw [hRused]
    exact hx

/-- C3: inserting a node at the root level (any sentinel parent resolves
to the root) and then removing it by the internal id the insert returned
succeeds, and afterwards the natural-key index holds no entry for the
removed node or any of its descendants, the internal-id index resolves
none of their internal ids, the node-to-internal-id index holds none of
them, and none of their natural keys remains selected or expanded; the
removed internal id stays in `usedInternalIds`, so any later allocation
from any state that still carries the used set (the allocator only ever
grows it) can never return that id again. -/
theorem c3_insert_remove (ent : Nat → Str) (st : TState) (u : RecordData) (pos : Position)
    (iid : Str) (st1 : TState)
    (hWF1 : ∀ n ∈ subnodesList st.data, n.internalId.isSome ∧ n.internalId.getD [] ≠ [])
    (hWF2 : (idsL st.data).Nodup)
    (hWF3 : ∀ i ∈ idsL st.data, i ∈ st.usedInternalIds)
    (hAdd : addNode ent ParentRef.null u pos st = some (some iid, st1)) :
    ∃ target st2,
      mapGet st1.internalIdMap iid = some target
      ∧ target.internalId = some iid
      ∧ removeNodeByInternalId ent iid st1 = some (true, st2)
      ∧ (∀ d ∈ subnodesList [target],
          (∀ k v, mapGet st2.nodeDataMap k = some v → v ≠ d)
          ∧ mapGet st2.internalIdMap (d.internalId.getD []) = none
          ∧ mapGet st2.nodeToInternalIdMap d = none
          ∧ getNodeKey d ∉ st2.selectedNodes
          ∧ getNodeKey d ∉ st2.expandedNodes)
      ∧ iid ∈ st2.usedInternalIds
      ∧ (∀ (ent2 : Nat → Str) (s' : TState) (i2 : Str) (s2' : TState),
          (∀ x ∈ st2.usedInternalIds, x ∈ s'.usedInternalIds) →
          generateInternalId ent2 s' = some (i2, s2') → i2 ≠ iid) := by
  cases hg : generateInternalId ent st with
  | none => simp only [addNode, hg] at hAdd; exact Option.noConfusion hAdd
  | some p =>
    obtain ⟨iid0, stg⟩ := p
    simp only [addNode, hg] at hAdd
    cases hr : refreshTree ent
        { stg with data := addToRootLevel (mkNewNode u iid0) pos stg.data } with
    | none => rw [hr] at hAdd; exact Option.noConfusion hAdd
    | some st3 =>
      rw [hr] at hAdd
      simp only [Option.map] at hAdd
      injection hAdd with h1
      injection h1 with ha hb
      injection ha with hc
      rw [hc] at hg hr
      obtain ⟨hfresh, hne, hst⟩ := generateInternalId_spec ent st iid stg hg
      obtain ⟨stB, hb2, hst3eq⟩ := refreshTree_split ent
        { stg with data := addToRootLevel (mkNewNode u iid) pos stg.data } st3 hr
      have hst1eq : st1 = updateTreeContent stB := by rw [← hb, hst3eq]
      subst hst1eq
      obtain ⟨r, hm, hrdata⟩ := buildNodeDataMap_split ent _ stB hb2
      obtain ⟨ns', es, msf⟩ := r
      have hstgd : stg.data = st.data := by rw [hst]
      have hstu : stg.usedInternalIds = setAdd st.usedInternalIds iid := by rw [hst]
      have hiidnot : iid ∉ idsL st.data := fun hmm => hfresh (hWF3 iid hmm)
      have hm2 : mapNodes ent (addToRootLevel (mkNewNode u iid) pos stg.data)
          ⟨[], stg.usedInternalIds, stg.internalIdCounter⟩ = some (ns', es, msf) := hm
      have hminv : MInv (⟨[], stg.usedInternalIds, stg.internalIdCounter⟩ : MState) :=
        ⟨List.nodup_nil, fun a ha2 => absurd ha2 (List.not_mem_nil a)⟩
      have hused0 : iid ∈ stg.usedInternalIds := by
        rw [hstu]
        exact mem_setAdd_self _ _
      have hkeepLast : mapNodes ent (st.data ++ mkNewNode u iid :: [])
          ⟨[], stg.usedInternalIds, stg.internalIdCounter⟩ = some (ns', es, msf) →
          iid ∈ idsL ns' := fun hmx =>
        mapNodes_keeps ent iid st.data (mkNewNode u iid) [] _ ns' es msf hmx hminv
          rfl hne (List.not_mem_nil iid) hused0 hiidnot
      have hkept : iid ∈ idsL ns' := by
        cases pos
        case first =>
          rw [show addToRootLevel (mkNewNode u iid) Position.first stg.data
              = mkNewNode u iid :: stg.data from rfl, hstgd,
            show (mkNewNode u iid :: st.data) = [] ++ mkNewNode u iid :: st.data from rfl] at hm2
          exact mapNodes_keeps ent iid [] (mkNewNode u iid) st.data _ ns' es msf hm2 hminv
            rfl hne (List.not_mem_nil iid) hused0
            (by rw [idsL_nil]; exact List.not_mem_nil iid)
        case last =>
          rw [show addToRootLevel (mkNewNode u iid) Position.last stg.data
              = stg.data ++ [mkNewNode u iid] from rfl, hstgd] at hm2
          exact hkeepLast hm2
        case before =>
          rw [show addToRootLevel (mkNewNode u iid) Position.before stg.data
              = stg.data ++ [mkNewNode u iid] from rfl, hstgd] at hm2
          exact hkeepLast hm2
        case after =>
          rw [show addToRootLevel (mkNewNode u iid) Position.after stg.data
              = stg.data ++ [mkNewNode u iid] from rfl, hstgd] at hm2
          exact hkeepLast hm2
      have hiidB : iid ∈ idsL stB.data := by
        rw [hrdata]
        exact hkept
      have hspecB := buildNodeDataMap_spec ent _ stB hb2
      have hiidB' := hiidB
      simp only [idsL, List.mem_map] at hiidB'
      obtain ⟨target, htmem, htid⟩ := hiidB'
      have htsome : target.internalId = some iid := by
        obtain ⟨hso, -⟩ := hspecB.1 target htmem
        cases hx : target.internalId with
        | none => rw [hx] at hso; exact Bool.noConfusion hso
        | some j =>
          rw [hx] at htid
          rw [show j = iid from htid]
      have hufr := updateTreeContent_frame stB
      have hget1 : mapGet (updateTreeContent stB).internalIdMap iid = some target := by
        rw [hufr.2.2.2.2.2.1, hspecB.2.2.2.2.1]
        refine mapGet_buildMap_of_nodup _ ?_ iid target ?_
        · rw [List.map_map]
          exact hspecB.2.1
        · rw [← htid]
          exact List.mem_map_of_mem _ htmem
      have hW1 : ∀ n ∈ subnodesList (updateTreeContent stB).data,
          n.internalId.isSome ∧ n.internalId.getD [] ≠ [] := by
        rw [hufr.1]
        exact hspecB.1
      have hW2 : (idsL (updateTreeContent stB).data).Nodup := by
        rw [hufr.1]
        exact hspecB.2.1
      have hW3 : ∀ i ∈ idsL (updateTreeContent stB).data,
          i ∈ (updateTreeContent stB).usedInternalIds := by
        rw [hufr.1, hufr.2.2.2.2.2.2.2.1]
        exact hspecB.2.2.1
      have htmem1 : target ∈ subnodesList (updateTreeContent stB).data := by
        rw [hufr.1]
        exact htmem
      obtain ⟨st2, hrm, hpurge, hmono⟩ :=
        remove_purges ent iid (updateTreeContent stB) target hW1 hW2 hW3 hne hget1 htmem1
      have hiidst2 : iid ∈ st2.usedInternalIds := by
        refine hmono iid ?_
        rw [hufr.2.2.2.2.2.2.2.1]
        exact hspecB.2.2.1 iid hiidB
      refine ⟨target, st2, hget1, htsome, hrm, hpurge, hiidst2, ?_⟩
      intro ent2 s' i2 s2' hsubu hgen2 heq
      obtain ⟨hf2, -, -⟩ := generateInternalId_spec ent2 s' i2 s2' hgen2
      rw [heq] at hf2
      exact hf2 (hsubu iid hiidst2)

/-- C3 witness: inserting `u0` at the end of the empty registry's root
level yields id "1_e" and state `stW`; the insert-then-remove guarantees
are then delivered by the theorem at this concrete input. -/
theorem c3_insert_remove_witness :
    ((∀ n ∈ subnodesList stEmpty.data, n.internalId.isSome ∧ n.internalId.getD [] ≠ [])
      ∧ (idsL stEmpty.data).Nodup
      ∧ (∀ i ∈ idsL stEmpty.data, i ∈ stEmpty.usedInternalIds)
      ∧ addNode ent0 ParentRef.null u0 Position.last stEmpty = some (some (str "1_e"), stW))
    ∧ (∃ target st2,
        mapGet stW.internalIdMap (str "1_e") = some target
        ∧ target.internalId = some (str "1_e")
        ∧ removeNodeByInternalId ent0 (str "1_e") stW = some (true, st2)
        ∧ (∀ d ∈ subnodesList [target],
            (∀ k v, mapGet st2.nodeDataMap k = some v → v ≠ d)
            ∧ mapGet st2.internalIdMap (d.internalId.getD []) = none
            ∧ mapGet st2.nodeToInternalIdMap d = none
            ∧ getNodeKey d ∉ st2.selectedNodes
            ∧ getNodeKey d ∉ st2.expandedNodes)
        ∧ str "1_e" ∈ st2.usedInternalIds
        ∧ (∀ (ent2 : Nat → Str) (s' : TState) (i2 : Str) (s2' : TState),
            (∀ x ∈ st2.usedInternalIds, x ∈ s'.usedInternalIds) →
            generateInternalId ent2 s' = some (i2, s2') → i2 ≠ str "1_e")) := by
  have hW1 : ∀ n ∈ subnodesList stEmpty.data, n.internalId.isSome ∧ n.internalId.getD [] ≠ [] :=
    fun n hn => absurd ((subnodesList_nil ▸ hn : n ∈ ([] : List Node))) (List.not_mem_nil n)
  have hW2 : (idsL stEmpty.data).Nodup := by
    rw [show stEmpty.data = [] from rfl, idsL_nil]
    exact List.nodup_nil
  have hW3 : ∀ i ∈ idsL stEmpty.data, i ∈ stEmpty.usedInternalIds :=
    fun i hi => absurd ((idsL_nil ▸ hi : i ∈ ([] : List Str))) (List.not_mem_nil i)
  have hAdd : addNode ent0 ParentRef.null u0 Position.last stEmpty
      = some (some (str "1_e"), stW) := by
    have hg : generateInternalId ent0 stEmpty = some (str "1_e", stgE) := rfl
    have h0 : ({ stgE with
        data := addToRootLevel (mkNewNode u0 (str "1_e")) Position.last stgE.data } : TState)
        = preW := by rfl
    have hrt : refreshTree ent0 preW = some stW := by
      simp only [refreshTree, buildNodeDataMap, preW, nW, mapNodes, idStep,
        getNodeKey, lookupField, derivedKey, serializeNode, serializeList]
      rfl
    simp only [addNode, hg, h0, hrt]
    rfl
  exact ⟨⟨hW1, hW2, hW3, hAdd⟩,
    c3_insert_remove ent0 stEmpty u0 Position.last (str "1_e") stW hW1 hW2 hW3 hAdd⟩
